import Mathlib

/-!
The gapir `ResourceInMemoryCache`: the block ring and the cache engine.

A shallow embedding of `gapir/cc/resource_in_memory_cache.h`.

* `Block` nodes live in a store `Mem : Ptr → Option Block`; a `Block*` is a `Ptr`.
* Every function that dereferences a pointer or checks a `GAPID_ASSERT` returns
  `Except Fault _`: `Fault.assertion` is a tripped assertion, `Fault.dangling` a
  dereference of a pointer that is not a live block, `Fault.fuel` a loop that ran
  out of its iteration budget.
* `size_t` values are natural numbers, and the one addition of the header, in
  `Block::end`, wraps at `2 ^ 64`; a byte is a natural number as well (bytes are only
  copied, never computed with).
-/

set_option autoImplicit false

namespace gapir

/-- A `Block*`. -/
abbrev Ptr := Nat

/-- The `ResourceId` of the source is a `std::string`. -/
abbrev ResourceId := String

/-- One byte of the cache buffer. -/
abbrev Byte := Nat

/-- The struct `ResourceInMemoryCache::Block`. -/
structure Block where
  offset : Nat
  size : Nat
  id : ResourceId
  next : Ptr
  prev : Ptr
deriving DecidableEq, Repr

/-- The ways in which an embedded function can fail to return. -/
inductive Fault where
  | assertion
  | dangling
  | fuel
deriving DecidableEq, Repr

/-- The store of `Block` nodes: `none` is an address that holds no live block. -/
abbrev Mem := Ptr → Option Block

/-- Reading `*p`. -/
def deref (m : Mem) (p : Ptr) : Except Fault Block :=
  match m p with
  | some b => Except.ok b
  | none => Except.error Fault.dangling

/-- Writing `*p = b`. -/
def store (m : Mem) (p : Ptr) (b : Block) : Mem :=
  fun q => if q = p then some b else m q

/-- The field `p->next`, when `p` is live. -/
def nextOf (m : Mem) (p : Ptr) : Option Ptr := (m p).map Block.next

/-- The field `p->prev`, when `p` is live. -/
def prevOf (m : Mem) (p : Ptr) : Option Ptr := (m p).map Block.prev

/-- The macro `GAPID_ASSERT(c)`. -/
def gapidAssert (c : Bool) : Except Fault Unit :=
  if c then Except.ok () else Except.error Fault.assertion

namespace Block

/-- The constructor `Block::Block(offset, size, id)`: the node is self-linked, `self` is
its address.
The two shorter constructors are this one at `id = ""` (and `offset = size = 0`). -/
def mk3 (self : Ptr) (offset size : Nat) (id : ResourceId) : Block :=
  { offset := offset, size := size, id := id, next := self, prev := self }

/-- The method `Block::isFree`: `id.size() == 0`. -/
def isFree (b : Block) : Bool := b.id.length == 0

/-- The method `Block::end`: `offset + size`, an addition of two `size_t`, which wraps
at `2 ^ 64`. -/
def end_ (b : Block) : Nat := (b.offset + b.size) % 2 ^ 64

/-- The method `Block::linkAfter`: statement by statement, `this` is the receiver. -/
def linkAfter (m : Mem) (this other : Ptr) : Except Fault Mem := do
  let t ← deref m this
  gapidAssert (t.next == this && t.prev == this)
  let o ← deref m other
  -- next = other->next; prev = other;
  let m1 := store m this { t with next := o.next, prev := other }
  -- next->prev = this;
  let t1 ← deref m1 this
  let n ← deref m1 t1.next
  let m2 := store m1 t1.next { n with prev := this }
  -- prev->next = this;
  let t2 ← deref m2 this
  let p ← deref m2 t2.prev
  Except.ok (store m2 t2.prev { p with next := this })

/-- The method `Block::linkBefore`: statement by statement. -/
def linkBefore (m : Mem) (this other : Ptr) : Except Fault Mem := do
  let t ← deref m this
  gapidAssert (t.next == this && t.prev == this)
  let o ← deref m other
  -- next = other; prev = other->prev;
  let m1 := store m this { t with next := other, prev := o.prev }
  -- next->prev = this;
  let t1 ← deref m1 this
  let n ← deref m1 t1.next
  let m2 := store m1 t1.next { n with prev := this }
  -- prev->next = this;
  let t2 ← deref m2 this
  let p ← deref m2 t2.prev
  Except.ok (store m2 t2.prev { p with next := this })

/-- The method `Block::unlink`: statement by statement. -/
def unlink (m : Mem) (this : Ptr) : Except Fault Mem := do
  let t ← deref m this
  gapidAssert (t.next != this && t.prev != this)
  -- next->prev = prev;
  let n ← deref m t.next
  let m1 := store m t.next { n with prev := t.prev }
  -- prev->next = next;
  let t1 ← deref m1 this
  let p ← deref m1 t1.prev
  let m2 := store m1 t1.prev { p with next := t1.next }
  -- next = this; prev = this;
  let t2 ← deref m2 this
  Except.ok (store m2 this { t2 with next := this, prev := this })

end Block

/-- The class `ResourceInMemoryCache`: the block store with its allocation mark `brk`
(every address at or above `brk` is unused, `new Block` takes `brk`), and the members
`mHead`, `mCache`, `mBuffer`, `mBufferSize`. -/
structure ResourceInMemoryCache where
  blocks : Mem
  brk : Ptr
  mHead : Ptr
  mCache : ResourceId → Option Nat
  mBuffer : Nat → Byte
  mBufferSize : Nat

namespace ResourceInMemoryCache

/-- The call `std::unordered_map::erase(key)`. -/
def erase (c : ResourceId → Option Nat) (id : ResourceId) : ResourceId → Option Nat :=
  fun k => if k = id then none else c k

/-- The method `ResourceInMemoryCache::free`. -/
def free (s : ResourceInMemoryCache) (block : Ptr) : Except Fault ResourceInMemoryCache := do
  let b ← deref s.blocks block
  -- mCache.erase(block->id);
  let s1 := { s with mCache := erase s.mCache b.id }
  -- block->id = ResourceId();
  let b1 ← deref s1.blocks block
  Except.ok { s1 with blocks := store s1.blocks block { b1 with id := "" } }

/-- The loop of `ResourceInMemoryCache::last`, with an iteration budget. -/
def lastLoop (m : Mem) : Nat → Ptr → Except Fault Ptr
  | 0, _ => Except.error Fault.fuel
  | fuel + 1, block => do
    let b ← deref m block
    let n ← deref m b.next
    if n.offset > b.offset then lastLoop m fuel b.next else Except.ok block

/-- The method `ResourceInMemoryCache::last`; the loop may run `fuel` times. -/
def last (fuel : Nat) (s : ResourceInMemoryCache) : Except Fault Ptr :=
  lastLoop s.blocks fuel s.mHead

/-- The method `ResourceInMemoryCache::first`: `last()->next`. -/
def first (fuel : Nat) (s : ResourceInMemoryCache) : Except Fault Ptr := do
  let l ← last fuel s
  let b ← deref s.blocks l
  Except.ok b.next

/-- The statement `delete block`: runs `Block::~Block` (which asserts that the node is self-linked)
and releases the address. -/
def delete (m : Mem) (block : Ptr) : Except Fault Mem := do
  let b ← deref m block
  gapidAssert (b.next == block && b.prev == block)
  Except.ok (fun q => if q = block then none else m q)

/-- The method `ResourceInMemoryCache::destroy`: returns the new state and the returned pointer. -/
def destroy (s : ResourceInMemoryCache) (block : Ptr) :
    Except Fault (ResourceInMemoryCache × Ptr) := do
  let b ← deref s.blocks block
  let next := b.next
  let s1 := if s.mHead = block then { s with mHead := next } else s
  let s2 ← free s1 block
  let m3 ← Block.unlink s2.blocks block
  let m4 ← delete m3 block
  Except.ok ({ s2 with blocks := m4 }, next)

/-- The first loop of `foreach_block` from its loop test on: `block` is the loop
variable, `blocks` the vector filled so far; at most `fuel` tests. -/
def collectLoop (m : Mem) (first : Ptr) : Nat → Ptr → List Ptr → Except Fault (List Ptr)
  | 0, _, _ => Except.error Fault.fuel
  | fuel + 1, block, blocks =>
    if block = first then Except.ok blocks
    else do
      let b ← deref m block
      collectLoop m first fuel b.next (blocks ++ [block])

/-- The method `ResourceInMemoryCache::foreach_block`. The callback `cb` acts by side
effects, so it is a function on the state `σ` it can reach (the cache, or the cache
together with what the callback has captured), of which `blocksOf` gives the block
store. The vector `blocks` is filled from the store of the state at the call, then the
callback is run on its members in order. -/
def foreach_block {σ : Type} (blocksOf : σ → Mem) (fuel : Nat) (first : Ptr)
    (cb : Ptr → σ → Except Fault σ) (w : σ) : Except Fault σ := do
  let f ← deref (blocksOf w) first
  let blocks ← collectLoop (blocksOf w) first fuel f.next [first]
  blocks.foldlM (fun st block => cb block st) w

/-! ### The operations whose bodies are not in the header

`resource_in_memory_cache.h` declares the constructor, `put`, `putCache`, `getCache`,
`clear` and `resize`; their bodies are in a `.cpp` file that is not part of the
sources at hand. They are modelled from the specification (§3 and §4.1), on the same
store and with the helpers of the header (`free`, `destroy`, `linkBefore`). -/

/-- The expression `new Block(offset, size, id)`: the new node takes the address `brk`. -/
def newBlock (s : ResourceInMemoryCache) (offset size : Nat) (id : ResourceId) :
    ResourceInMemoryCache × Ptr :=
  ({ s with blocks := store s.blocks s.brk (Block.mk3 s.brk offset size id),
            brk := s.brk + 1 }, s.brk)

/-- Modelled from the spec: the index entry that `put` creates on admission (§3,
"entries are created on admission"), the statement `mCache[id] = offset`. -/
def insert (c : ResourceId → Option Nat) (id : ResourceId) (offset : Nat) :
    ResourceId → Option Nat :=
  fun k => if k = id then some offset else c k

/-- Modelled from the spec: the copy of the bytes in `put`, whose body is missing.
The `n` bytes of `data` go into the buffer of size `bufSize` from offset `start` on,
byte by byte, the offsets taken modulo the buffer size (§3: a span may wrap). -/
def copyIn (buf : Nat → Byte) (bufSize start : Nat) (data : Nat → Byte) : Nat → Nat → Byte
  | 0 => buf
  | n + 1 => fun a =>
    if a = (start + n) % bufSize then data n else copyIn buf bufSize start data n a

/-- Modelled from the spec: the copy of the bytes in `getCache`, whose body is
missing: `n` bytes of the buffer from offset `start` on, modulo the buffer size. -/
def copyOut (buf : Nat → Byte) (bufSize start n : Nat) : List Byte :=
  (List.range n).map (fun i => buf ((start + i) % bufSize))

/-- Modelled from the spec: the constructor and `create`, whose bodies are missing.
"The initial cache size is 0 byte" (header), and a cache starts as "a single free
block spanning the whole buffer" with an empty index (§3). -/
def create (buffer : Nat → Byte) : ResourceInMemoryCache :=
  { blocks := store (fun _ => none) 0 (Block.mk3 0 0 0 ""), brk := 1, mHead := 0,
    mCache := fun _ => none, mBuffer := buffer, mBufferSize := 0 }

/-- Modelled from the spec: the size contract of `get` (§4.1, "the destination size
must equal the block's recorded size"), for which no code is at hand: whether one of
the blocks `ring` holds the resource `id` at `offset` with the recorded size `size`. -/
def recorded (m : Mem) (ring : List Ptr) (id : ResourceId) (offset size : Nat) : Bool :=
  ring.any fun p =>
    match m p with
    | some b => decide (b.id = id ∧ b.offset = offset ∧ b.size = size)
    | none => false

/-- Modelled from the spec: the `get` of §4.1, the work of `getCache`, whose body is
missing. An index lookup: `Except.ok none` is a miss. On an index entry the blocks of
the ring are collected as `foreach_block` collects them (the number of blocks ever
allocated bounds the walk), and a `size` that is not the recorded size of the block of
the resource is the contract violation of §4.1, a fatal assertion (§7); otherwise
`size` bytes are copied out from the recorded offset on (a hit). -/
def get (s : ResourceInMemoryCache) (id : ResourceId) (size : Nat) :
    Except Fault (Option (List Byte)) :=
  match s.mCache id with
  | none => Except.ok none
  | some offset => do
    let h ← deref s.blocks s.mHead
    let ring ← collectLoop s.blocks s.mHead s.brk h.next [s.mHead]
    gapidAssert (recorded s.blocks ring id offset size)
    Except.ok (some (copyOut s.mBuffer s.mBufferSize offset size))

/-- Modelled from the spec: `getCache`, whose body is missing: the resource is looked
up with `get`; the `bool` result of the source is whether the result is a hit. -/
def getCache (s : ResourceInMemoryCache) (id : ResourceId) (size : Nat) :
    Except Fault (Option (List Byte)) :=
  get s id size

/-- Modelled from the spec: the eviction walk of `put`, whose body is missing (§4.1
put, second bullet). While the free span accumulated in the cursor block is shorter
than `size`, the block after it is evicted and merged into the span (`destroy` frees,
unlinks and deletes it). The walk goes forward only. At most `fuel` rounds. -/
def evictLoop (size : Nat) : Nat → ResourceInMemoryCache → Except Fault ResourceInMemoryCache
  | 0, _ => Except.error Fault.fuel
  | fuel + 1, s => do
    let h ← deref s.blocks s.mHead
    if size ≤ h.size then Except.ok s
    else do
      let n ← deref s.blocks h.next
      let s1 := { s with blocks := store s.blocks s.mHead { h with size := h.size + n.size } }
      let r ← destroy s1 h.next
      evictLoop size fuel r.1

/-- Modelled from the spec: `put`, whose body is missing (§4.1 put). `data` is the
source pointer, `data i` its `i`-th byte.
* `size > mBufferSize`: a no-op.
* Otherwise the block at the eviction cursor is evicted and the walk accumulates a
  free span of at least `size` bytes (`evictLoop`; the number of blocks ever allocated
  bounds the rounds).
* A new block `[start, start + size)` with the id is created in front of the span;
  leftover bytes remain as the trailing free block, a span used up entirely is
  destroyed; the id is entered in the index and the bytes are copied in.
* The cursor moves to the block after the new block. -/
def put (s : ResourceInMemoryCache) (id : ResourceId) (size : Nat) (data : Nat → Byte) :
    Except Fault ResourceInMemoryCache :=
  if size > s.mBufferSize then Except.ok s
  else do
    let s1 ← free s s.mHead
    let s2 ← evictLoop size s1.brk s1
    let span ← deref s2.blocks s2.mHead
    let start := span.offset
    let (s3, nb) := newBlock s2 start size id
    let m4 ← Block.linkBefore s3.blocks nb s3.mHead
    let s4 := { s3 with blocks := m4 }
    let s5 ←
      if size < span.size then do
        let t ← deref s4.blocks s4.mHead
        let rest : Block :=
          { t with offset := (start + size) % s4.mBufferSize, size := span.size - size }
        Except.ok { s4 with blocks := store s4.blocks s4.mHead rest }
      else do
        let r ← destroy s4 s4.mHead
        Except.ok r.1
    let s6 := { s5 with mCache := insert s5.mCache id start,
                        mBuffer := copyIn s5.mBuffer s5.mBufferSize start data size }
    let b ← deref s6.blocks nb
    Except.ok { s6 with mHead := b.next }

/-- Modelled from the spec: `putCache`, whose body is missing: the resource is handed
to `put`. -/
def putCache (s : ResourceInMemoryCache) (id : ResourceId) (size : Nat) (data : Nat → Byte) :
    Except Fault ResourceInMemoryCache :=
  put s id size data

/-- Modelled from the spec: the loop of `clear` (§4.1 clear, "evicts all blocks"):
every block other than the cursor block is destroyed. At most `fuel` rounds. -/
def clearLoop : Nat → ResourceInMemoryCache → Except Fault ResourceInMemoryCache
  | 0, _ => Except.error Fault.fuel
  | fuel + 1, s => do
    let h ← deref s.blocks s.mHead
    if h.next = s.mHead then Except.ok s
    else do
      let r ← destroy s h.next
      clearLoop fuel r.1

/-- Modelled from the spec: `clear`, whose body is missing (§4.1 clear): "evicts all
blocks, resets to the single-free-block state, empties the index". The number of
blocks ever allocated bounds the rounds of the loop. -/
def clear (s : ResourceInMemoryCache) : Except Fault ResourceInMemoryCache := do
  let s1 ← clearLoop s.brk s
  let s2 ← free s1 s1.mHead
  let h ← deref s2.blocks s2.mHead
  let whole : Block := { h with offset := 0, size := s2.mBufferSize }
  Except.ok { s2 with blocks := store s2.blocks s2.mHead whole, mCache := fun _ => none }

/-- Modelled from the spec: `resize`, whose body is missing (§4.1 resize): the buffer
size is replaced and "resize implies an effective clear". -/
def resize (s : ResourceInMemoryCache) (newSize : Nat) : Except Fault ResourceInMemoryCache :=
  clear { s with mBufferSize := newSize }

end ResourceInMemoryCache

/-! ## The block ring, the abstract view of the cache and the example states -/

/-- The fields of a block other than its links: a span of the buffer and the id of the
resource that occupies it (empty for free space). -/
structure Entry where
  offset : Nat
  size : Nat
  id : ResourceId
deriving DecidableEq, Repr

/-- The fields of a block other than its links. -/
def payload (b : Block) : Entry := { offset := b.offset, size := b.size, id := b.id }

/-- Block `y` directly follows block `x`: `x->next == y` and `y->prev == x`. -/
def Adj (m : Mem) (x y : Ptr) : Prop := nextOf m x = some y ∧ prevOf m y = some x

instance (m : Mem) (x y : Ptr) : Decidable (Adj m x y) :=
  inferInstanceAs (Decidable (nextOf m x = some y ∧ prevOf m y = some x))

/-- The list `l` is the ring of blocks in `next` order, from any one of its blocks:
the blocks are distinct, each is directly followed by the next one of the list, and
the last one is directly followed by the first. So following `next` from a block
visits every block exactly once and returns to the start, and
`b.next.prev = b = b.prev.next` for every block `b`. -/
def IsRing (m : Mem) (l : List Ptr) : Prop :=
  l ≠ [] ∧ l.Nodup ∧ l.Chain' (Adj m) ∧ ∀ z ∈ l.getLast?, ∀ a ∈ l.head?, Adj m z a

/-- Whether consecutive blocks of a list are adjacent can be computed. -/
def decChain (m : Mem) : (l : List Ptr) → Decidable (l.Chain' (Adj m))
  | [] => isTrue List.chain'_nil
  | [_] => isTrue (List.chain'_singleton _)
  | x :: y :: r =>
    haveI := decChain m (y :: r)
    decidable_of_iff (Adj m x y ∧ (y :: r).Chain' (Adj m)) List.chain'_cons.symm

instance (m : Mem) (l : List Ptr) : Decidable (l.Chain' (Adj m)) := decChain m l

instance (m : Mem) (l : List Ptr) : Decidable (IsRing m l) :=
  inferInstanceAs (Decidable (l ≠ [] ∧ l.Nodup ∧ l.Chain' (Adj m) ∧
    ∀ z ∈ l.getLast?, ∀ a ∈ l.head?, Adj m z a))

/-- A self-linked block: `next == this && prev == this`. -/
def SelfLinked (m : Mem) (p : Ptr) : Prop := nextOf m p = some p ∧ prevOf m p = some p

instance (m : Mem) (p : Ptr) : Decidable (SelfLinked m p) :=
  inferInstanceAs (Decidable (nextOf m p = some p ∧ prevOf m p = some p))

/-- The entries of the blocks at the addresses `ptrs`. -/
def entriesOf (m : Mem) (ptrs : List Ptr) : List (Option Entry) :=
  ptrs.map (fun p => (m p).map payload)

/-- The state `s` holds the ring `ptrs`, listed from the eviction cursor, whose blocks
carry the entries `L`; all its blocks were allocated below `brk`. -/
def Rep (s : ResourceInMemoryCache) (ptrs : List Ptr) (L : List Entry) : Prop :=
  IsRing s.blocks ptrs ∧ ptrs.head? = some s.mHead ∧ (∀ p ∈ ptrs, p < s.brk) ∧
    entriesOf s.blocks ptrs = L.map some

instance (s : ResourceInMemoryCache) (ptrs : List Ptr) (L : List Entry) :
    Decidable (Rep s ptrs L) :=
  inferInstanceAs (Decidable (IsRing s.blocks ptrs ∧ ptrs.head? = some s.mHead ∧
    (∀ p ∈ ptrs, p < s.brk) ∧ entriesOf s.blocks ptrs = L.map some))

/-- The sum of the sizes of a list of entries. -/
def totalSize (L : List Entry) : Nat := (L.map Entry.size).sum

/-- The eviction walk on entries: the span `c` absorbs the entries that follow it
until it has `size` bytes; the ids of the absorbed entries leave the index. -/
def absWalk (size : Nat) :
    Entry → List Entry → (ResourceId → Option Nat) →
      Entry × List Entry × (ResourceId → Option Nat)
  | c, [], idx => (c, [], idx)
  | c, n :: R, idx =>
    if size ≤ c.size then (c, n :: R, idx)
    else absWalk size { c with size := c.size + n.size } R
      (ResourceInMemoryCache.erase idx n.id)

/-- What `put` does on the entries (listed from the cursor) and on the index, for
`size ≤ bufSize`. -/
def absPut (bufSize : Nat) (id : ResourceId) (size : Nat) (L : List Entry)
    (idx : ResourceId → Option Nat) : List Entry × (ResourceId → Option Nat) :=
  match L with
  | [] => ([], idx)
  | c :: R =>
    let w := absWalk size { c with id := "" } R (ResourceInMemoryCache.erase idx c.id)
    let new : Entry := { offset := w.1.offset, size := size, id := id }
    if size < w.1.size then
      ({ offset := (w.1.offset + size) % bufSize, size := w.1.size - size, id := "" } ::
        w.2.1 ++ [new], ResourceInMemoryCache.insert w.2.2 id w.1.offset)
    else
      (w.2.1 ++ [new],
        ResourceInMemoryCache.insert (ResourceInMemoryCache.erase w.2.2 "") id w.1.offset)

/-- The state has a well-formed ring `ptrs`, listed from the eviction cursor, whose
blocks were allocated below `brk`. -/
def WellFormed (s : ResourceInMemoryCache) (ptrs : List Ptr) : Prop :=
  IsRing s.blocks ptrs ∧ ptrs.head? = some s.mHead ∧ ∀ p ∈ ptrs, p < s.brk

instance (s : ResourceInMemoryCache) (ptrs : List Ptr) : Decidable (WellFormed s ptrs) :=
  inferInstanceAs (Decidable (IsRing s.blocks ptrs ∧ ptrs.head? = some s.mHead ∧
    ∀ p ∈ ptrs, p < s.brk))

/-- The block that `clear` leaves: free, at offset 0, of the size of the buffer, alone
in its ring. -/
def wholeBlock (self : Ptr) (bufSize : Nat) : Block :=
  { offset := 0, size := bufSize, id := "", next := self, prev := self }

/-- The entries lie one after the other, modulo the buffer size, from offset `o` on. -/
def laidOut (B : Nat) : Nat → List Entry → Prop
  | _, [] => True
  | o, e :: L => e.offset % B = o % B ∧ laidOut B (o + e.size) L

instance decLaidOut (B : Nat) : (o : Nat) → (L : List Entry) → Decidable (laidOut B o L)
  | _, [] => isTrue trivial
  | o, e :: L => @instDecidableAnd _ _ _ (decLaidOut B (o + e.size) L)

/-- The invariant of a cache state: a well-formed ring of blocks allocated below
`brk`, listed from the cursor, whose spans lie one after the other around the buffer
and whose sizes sum to the buffer size. -/
def Inv (s : ResourceInMemoryCache) : Prop :=
  ∃ ptrs L o, Rep s ptrs L ∧ totalSize L = s.mBufferSize ∧ laidOut s.mBufferSize o L

/-- The byte offsets that an entry occupies, modulo the buffer size (the span of a
wrapping block continues at the start of the buffer). -/
def spanOf (B : Nat) (e : Entry) : List Nat :=
  (List.range e.size).map (fun i => (e.offset + i) % B)

/-- The blocks of the ring partition the buffer: their spans are pairwise disjoint
and their sizes sum to the buffer size. -/
def Partition (s : ResourceInMemoryCache) : Prop :=
  ∃ ptrs L, IsRing s.blocks ptrs ∧ s.mHead ∈ ptrs ∧ entriesOf s.blocks ptrs = L.map some ∧
    L.Pairwise (fun a b => (spanOf s.mBufferSize a).Disjoint (spanOf s.mBufferSize b)) ∧
    totalSize L = s.mBufferSize

/-- A call of one of the three mutating operations of the cache. -/
inductive Op where
  | put (id : ResourceId) (size : Nat) (data : Nat → Byte)
  | clear
  | resize (newSize : Nat)

/-- Performing one call. -/
def Op.apply (s : ResourceInMemoryCache) : Op → Except Fault ResourceInMemoryCache
  | Op.put id size data => ResourceInMemoryCache.put s id size data
  | Op.clear => ResourceInMemoryCache.clear s
  | Op.resize n => ResourceInMemoryCache.resize s n

/-- Performing a sequence of calls, one after the other. -/
def run (s : ResourceInMemoryCache) : List Op → Except Fault ResourceInMemoryCache
  | [] => Except.ok s
  | op :: ops => Op.apply s op >>= fun s2 => run s2 ops

/-- A store with a ring of two blocks (addresses 0 and 1) and a self-linked block
(address 2). -/
def demoMem : Mem := fun p =>
  if p = 0 then some { offset := 0, size := 4, id := "a", next := 1, prev := 1 }
  else if p = 1 then some { offset := 4, size := 6, id := "", next := 0, prev := 0 }
  else if p = 2 then some (Block.mk3 2 0 0 "")
  else none

/-- A cache over `demoMem` in which block 0 holds the resource "a". -/
def demoCache : ResourceInMemoryCache :=
  { blocks := demoMem, brk := 3, mHead := 1,
    mCache := fun k => if k = "a" then some 0 else none,
    mBuffer := fun _ => 0, mBufferSize := 10 }

/-- The state after the scenario `put("a", 40)`, `put("b", 40)`, `put("c", 40)` on a
cache of 100 bytes, written out: the ring is block 0 (free, 20 bytes at offset 20),
block 2 ("b") and block 3 ("c", wrapping); the cursor is at block 0. -/
def abcCache : ResourceInMemoryCache :=
  { blocks := fun p =>
      if p = 0 then some { offset := 20, size := 20, id := "", next := 2, prev := 3 }
      else if p = 2 then some { offset := 40, size := 40, id := "b", next := 3, prev := 0 }
      else if p = 3 then some { offset := 80, size := 40, id := "c", next := 0, prev := 2 }
      else none,
    brk := 4, mHead := 0,
    mCache := fun k => if k = "b" then some 40 else if k = "c" then some 80 else none,
    mBuffer := fun _ => 0, mBufferSize := 100 }

/-- A cache of 100 bytes in its initial ring (one block), before `clear`. -/
def seedCache : ResourceInMemoryCache :=
  { ResourceInMemoryCache.create (fun _ => 0) with mBufferSize := 100 }

/-- The offset of the block at `p` (0 when `p` is not a live block). -/
def offsetAt (m : Mem) (p : Ptr) : Nat :=
  match m p with
  | some b => b.offset
  | none => 0

/-- A ring of 100 bytes in which two neighbours have the same offset: block 1 is an
entry of size 0 at offset 5, followed by block 2 at offset 5. The listing `[0, 1, 2, 3]`
starts at the lowest block; its offsets 0, 5, 5, 10 are non-decreasing and the only
wrap edge is from block 3 to block 0. The cursor is at block 1. -/
def tieCache : ResourceInMemoryCache :=
  { blocks := fun p =>
      if p = 0 then some { offset := 0, size := 5, id := "w", next := 1, prev := 3 }
      else if p = 1 then some { offset := 5, size := 0, id := "a", next := 2, prev := 0 }
      else if p = 2 then some { offset := 5, size := 5, id := "y", next := 3, prev := 1 }
      else if p = 3 then some { offset := 10, size := 90, id := "z", next := 0, prev := 2 }
      else none,
    brk := 4, mHead := 1,
    mCache := fun k => if k = "w" then some 0 else if k = "a" then some 5
      else if k = "y" then some 5 else if k = "z" then some 10 else none,
    mBuffer := fun _ => 0, mBufferSize := 100 }

/-- Calls that lead a newly created cache into the ring of `tieCache` (at other
addresses): the resource "a" has no bytes, so that its block and the block of "y"
after it have the same offset; the last `put` leaves the cursor at the block of "a". -/
def tieOps : List Op :=
  [Op.resize 100, Op.put "x" 5 (fun _ => 0), Op.put "a" 0 (fun _ => 0),
    Op.put "y" 5 (fun _ => 0), Op.put "z" 90 (fun _ => 0), Op.put "w" 5 (fun _ => 0)]

/-- Putting resources of one size, one after the other; a resource is an id and the
pointer to its bytes. -/
def putAll (size : Nat) :
    List (ResourceId × (Nat → Byte)) → ResourceInMemoryCache →
      Except Fault ResourceInMemoryCache
  | [], s => Except.ok s
  | r :: rs, s => ResourceInMemoryCache.put s r.1 size r.2 >>= putAll size rs

/-- The ring while a cleared cache is filled with resources of size `sz`: the cursor
is at a free block of `m` times `sz` bytes (no such block when `m = 0`), followed by
the entries of the ids `done` in the order of their admission, each of size `sz` and
with the index entry of its id at its offset. -/
def FillShape (sz : Nat) (s : ResourceInMemoryCache) (m : Nat) (done : List ResourceId) :
    Prop :=
  ∃ ptrs L E, Rep s ptrs L ∧ E.map Entry.id = done ∧
    (∀ e ∈ E, e.size = sz ∧ s.mCache e.id = some e.offset) ∧
    ((m = 0 ∧ L = E) ∨ (0 < m ∧ ∃ o, L = { offset := o, size := m * sz, id := "" } :: E))

/-- A callback that also records, in a list, the blocks it is called with. -/
def traced {σ : Type} (cb : Ptr → σ → Except Fault σ) :
    Ptr → σ × List Ptr → Except Fault (σ × List Ptr) :=
  fun block st => (cb block st.1).map (fun w => (w, st.2 ++ [block]))

/-- A callback that changes the ring while `foreach_block` runs: it destroys every
block but the one the cursor points to. -/
def destroyOthers (block : Ptr) (s : ResourceInMemoryCache) :
    Except Fault ResourceInMemoryCache :=
  if block = s.mHead then Except.ok s
  else (ResourceInMemoryCache.destroy s block).map Prod.fst

/-! ## Basic facts about the store -/

@[simp] theorem ok_bind {α β : Type} (a : α) (f : α → Except Fault β) :
    (Except.ok a >>= f) = f a := rfl

@[simp] theorem error_bind {α β : Type} (e : Fault) (f : α → Except Fault β) :
    (Except.error e >>= f) = Except.error e := rfl

@[simp] theorem store_same (m : Mem) (p : Ptr) (b : Block) : store m p b p = some b := by
  simp [store]

theorem store_other (m : Mem) (p : Ptr) (b : Block) (q : Ptr) (h : q ≠ p) :
    store m p b q = m q := by
  simp [store, h]

@[simp] theorem store_store (m : Mem) (p : Ptr) (a b : Block) :
    store (store m p a) p b = store m p b := by
  funext q
  simp only [store]
  split_ifs <;> rfl

/-- What `linkAfter` does to the store when the receiver is self-linked and distinct
from `other` and from `other->next`. -/
theorem linkAfter_spec (m : Mem) (this other : Ptr) (t o n : Block)
    (ht : m this = some t) (hs1 : t.next = this) (hs2 : t.prev = this)
    (ho : m other = some o) (hn : m o.next = some n)
    (h1 : this ≠ other) (h2 : this ≠ o.next) :
    ∃ m2, Block.linkAfter m this other = Except.ok m2 ∧
      (∀ q, nextOf m2 q = if q = other then some this else
        if q = this then some o.next else nextOf m q) ∧
      (∀ q, prevOf m2 q = if q = this then some other else
        if q = o.next then some this else prevOf m q) ∧
      (∀ q, (m2 q).map payload = (m q).map payload) := by
  have h2b : o.next ≠ this := fun h => h2 h.symm
  have h1b : other ≠ this := fun h => h1 h.symm
  have key : ∃ m2, Block.linkAfter m this other = Except.ok m2 ∧ m2 =
      store (store (store m this { t with next := o.next, prev := other }) o.next
        { n with prev := this }) other
        { (if other = o.next then { n with prev := this } else o) with next := this } := by
    by_cases h3 : other = o.next
    · have hno : n = o := by
        rw [← h3, ho] at hn
        exact (Option.some.inj hn).symm
      subst hno
      simp [Block.linkAfter, deref, store, ht, hs1, hs2, ho, h1, h2, h2b, h1b, gapidAssert,
        ← h3]
    · simp [Block.linkAfter, deref, store, ht, hs1, hs2, ho, hn, h1, h2, h2b, h1b, gapidAssert,
        h3]
  obtain ⟨m2, hm2, rfl⟩ := key
  refine ⟨_, hm2, ?_, ?_, ?_⟩
  · intro q
    simp only [nextOf, store]
    split_ifs <;> simp_all
  · intro q
    simp only [prevOf, store]
    split_ifs <;> simp_all
  · intro q
    simp only [store]
    split_ifs <;> simp_all [payload]

/-- What `linkBefore` does to the store when the receiver is self-linked and distinct
from `other` and from `other->prev`. -/
theorem linkBefore_spec (m : Mem) (this other : Ptr) (t o p : Block)
    (ht : m this = some t) (hs1 : t.next = this) (hs2 : t.prev = this)
    (ho : m other = some o) (hp : m o.prev = some p)
    (h1 : this ≠ other) (h2 : this ≠ o.prev) :
    ∃ m2, Block.linkBefore m this other = Except.ok m2 ∧
      (∀ q, nextOf m2 q = if q = o.prev then some this else
        if q = this then some other else nextOf m q) ∧
      (∀ q, prevOf m2 q = if q = this then some o.prev else
        if q = other then some this else prevOf m q) ∧
      (∀ q, (m2 q).map payload = (m q).map payload) := by
  have h2b : o.prev ≠ this := fun h => h2 h.symm
  have h1b : other ≠ this := fun h => h1 h.symm
  have key : ∃ m2, Block.linkBefore m this other = Except.ok m2 ∧ m2 =
      store (store (store m this { t with next := other, prev := o.prev }) other
        { o with prev := this }) o.prev
        { (if o.prev = other then { o with prev := this } else p) with next := this } := by
    by_cases h3 : o.prev = other
    · simp [Block.linkBefore, deref, store, ht, hs1, hs2, ho, h1, h2, h2b, h1b, gapidAssert,
        h3]
    · simp [Block.linkBefore, deref, store, ht, hs1, hs2, ho, hp, h1, h2, h2b, h1b,
        gapidAssert, h3]
  obtain ⟨m2, hm2, rfl⟩ := key
  refine ⟨_, hm2, ?_, ?_, ?_⟩
  · intro q
    simp only [nextOf, store]
    split_ifs <;> simp_all
  · intro q
    simp only [prevOf, store]
    split_ifs <;> simp_all
  · intro q
    simp only [store]
    split_ifs <;> simp_all [payload]

/-- What `unlink` does to the store when the receiver is linked to two live blocks
other than itself. -/
theorem unlink_spec (m : Mem) (this : Ptr) (t n p : Block)
    (ht : m this = some t) (h1 : t.next ≠ this) (h2 : t.prev ≠ this)
    (hn : m t.next = some n) (hp : m t.prev = some p) :
    ∃ m2, Block.unlink m this = Except.ok m2 ∧
      (∀ q, nextOf m2 q = if q = this then some this else
        if q = t.prev then some t.next else nextOf m q) ∧
      (∀ q, prevOf m2 q = if q = this then some this else
        if q = t.next then some t.prev else prevOf m q) ∧
      (∀ q, (m2 q).map payload = (m q).map payload) := by
  have h1b : this ≠ t.next := fun h => h1 h.symm
  have h2b : this ≠ t.prev := fun h => h2 h.symm
  have key : ∃ m2, Block.unlink m this = Except.ok m2 ∧ m2 =
      store (store (store m t.next { n with prev := t.prev }) t.prev
        { (if t.prev = t.next then { n with prev := t.prev } else p) with next := t.next })
        this { t with next := this, prev := this } := by
    by_cases h3 : t.prev = t.next
    · simp [Block.unlink, deref, store, ht, hn, h1, h2, h1b, h2b, gapidAssert, h3]
    · simp [Block.unlink, deref, store, ht, hn, hp, h1, h2, h1b, h2b, gapidAssert, h3]
  obtain ⟨m2, hm2, rfl⟩ := key
  refine ⟨_, hm2, ?_, ?_, ?_⟩
  · intro q
    simp only [nextOf, store]
    split_ifs <;> simp_all
  · intro q
    simp only [prevOf, store]
    split_ifs <;> simp_all
  · intro q
    simp only [store]
    split_ifs <;> simp_all [payload]

/-! ## Facts about rings -/

theorem nextOf_eq_some {m : Mem} {x y : Ptr} (h : nextOf m x = some y) :
    ∃ b, m x = some b ∧ b.next = y := by
  unfold nextOf at h
  cases hx : m x with
  | none => simp [hx] at h
  | some b => exact ⟨b, rfl, by simpa [hx] using h⟩

theorem prevOf_eq_some {m : Mem} {x y : Ptr} (h : prevOf m x = some y) :
    ∃ b, m x = some b ∧ b.prev = y := by
  unfold prevOf at h
  cases hx : m x with
  | none => simp [hx] at h
  | some b => exact ⟨b, rfl, by simpa [hx] using h⟩

theorem isRing_single (m : Mem) (a : Ptr) : IsRing m [a] ↔ Adj m a a := by
  simp [IsRing]

theorem isRing_cons_cons (m : Mem) (a b : Ptr) (r : List Ptr) :
    IsRing m (a :: b :: r) ↔ (a :: b :: r).Nodup ∧ Adj m a b ∧ (b :: r).Chain' (Adj m) ∧
      ∀ z ∈ (b :: r).getLast?, Adj m z a := by
  simp [IsRing, List.chain'_cons, and_assoc]

/-- A chain of adjacent blocks survives a change of the store that keeps the
adjacencies between members of the chain. -/
theorem chain_frame {m m2 : Mem} {l : List Ptr} (hc : l.Chain' (Adj m))
    (hf : ∀ x y, x ∈ l → y ∈ l → Adj m x y → Adj m2 x y) : l.Chain' (Adj m2) := by
  have h := List.Chain'.iff_mem.mp hc
  exact h.imp (fun x y hxy => hf x y hxy.1 hxy.2.1 hxy.2.2)

/-- A ring can be listed from any of its blocks. -/
theorem isRing_rotate {m : Mem} (l1 l2 : List Ptr) (h : IsRing m (l1 ++ l2)) :
    IsRing m (l2 ++ l1) := by
  cases l1 with
  | nil => simpa using h
  | cons a1 t1 =>
    cases l2 with
    | nil => simpa using h
    | cons a2 t2 =>
      obtain ⟨-, hnd, hch, hcl⟩ := h
      rw [List.chain'_append] at hch
      obtain ⟨hc1, hc2, hj⟩ := hch
      refine ⟨by simp, ?_, ?_, ?_⟩
      · exact (List.perm_append_comm.nodup_iff).mp hnd
      · rw [List.chain'_append]
        refine ⟨hc2, hc1, ?_⟩
        intro z hz a ha
        apply hcl z _ a _
        · rw [List.getLast?_append_of_ne_nil _ (List.cons_ne_nil _ _)]
          exact hz
        · simpa using ha
      · intro z hz a ha
        apply hj z _ a _
        · rw [List.getLast?_append_of_ne_nil _ (List.cons_ne_nil _ _)] at hz
          exact hz
        · simpa using ha

/-- On a ring listed from `other`, `linkAfter` makes the receiver the second block. -/
theorem linkAfter_ring_head {m : Mem} {this other : Ptr} {t : List Ptr}
    (hr : IsRing m (other :: t)) (hnot : this ∉ other :: t) (hs : SelfLinked m this) :
    ∃ m2, Block.linkAfter m this other = Except.ok m2 ∧ IsRing m2 (other :: this :: t) ∧
      ∀ q, (m2 q).map payload = (m q).map payload := by
  obtain ⟨tb, htb, hs1⟩ := nextOf_eq_some hs.1
  obtain ⟨tb2, htb2, hs2⟩ := prevOf_eq_some hs.2
  have : tb2 = tb := by rw [htb] at htb2; exact (Option.some.inj htb2).symm
  subst this
  have hne : this ≠ other := fun h => hnot (by simp [h])
  cases t with
  | nil =>
    rw [isRing_single] at hr
    obtain ⟨o, ho, hon⟩ := nextOf_eq_some hr.1
    have hn : m o.next = some o := by rw [hon]; exact ho
    obtain ⟨m2, hm2, hnx, hpv, hpl⟩ :=
      linkAfter_spec m this other tb2 o o htb hs1 hs2 ho hn hne (by rw [hon]; exact hne)
    refine ⟨m2, hm2, ?_, hpl⟩
    rw [isRing_cons_cons]
    refine ⟨by simpa using fun h => hne h.symm, ⟨?_, ?_⟩, by simp, ?_⟩
    · simp [hnx]
    · simp [hpv]
    · intro z hz
      simp at hz
      subst hz
      refine ⟨?_, ?_⟩
      · simp [hnx, hne, hon]
      · simp [hpv, hne.symm, hon]
  | cons n r =>
    rw [isRing_cons_cons] at hr
    obtain ⟨hnd, hadj, hch, hcl⟩ := hr
    obtain ⟨o, ho, hon⟩ := nextOf_eq_some hadj.1
    obtain ⟨nb, hnb, hnp⟩ := prevOf_eq_some hadj.2
    have hn : m o.next = some nb := by rw [hon]; exact hnb
    have hnn : this ≠ n := fun h => hnot (by simp [h])
    obtain ⟨m2, hm2, hnx, hpv, hpl⟩ :=
      linkAfter_spec m this other tb2 o nb htb hs1 hs2 ho hn hne (by rw [hon]; exact hnn)
    have hmem : ∀ x, x ∈ n :: r → x ≠ other ∧ x ≠ this := by
      intro x hx
      refine ⟨?_, ?_⟩
      · rintro rfl
        exact (List.nodup_cons.mp hnd).1 hx
      · rintro rfl
        exact hnot (List.mem_cons_of_mem _ hx)
    have hframe : ∀ x y, x ∈ n :: r → Adj m x y → y ≠ this → Adj m2 x y := by
      intro x y hx hxy hy
      refine ⟨?_, ?_⟩
      · rw [hnx, if_neg (hmem x hx).1, if_neg (hmem x hx).2]
        exact hxy.1
      · rw [hpv, if_neg hy, if_neg]
        · exact hxy.2
        · rw [hon]
          rintro rfl
          have := hxy.2
          rw [hadj.2] at this
          exact (hmem x hx).1 (Option.some.inj this).symm
    refine ⟨m2, hm2, ?_, hpl⟩
    rw [isRing_cons_cons]
    refine ⟨?_, ⟨?_, ?_⟩, ?_, ?_⟩
    · rw [List.nodup_cons] at hnd ⊢
      refine ⟨?_, List.nodup_cons.mpr ⟨fun h => hnot (List.mem_cons_of_mem _ h), hnd.2⟩⟩
      intro h
      rcases List.mem_cons.mp h with h | h
      · exact hne h.symm
      · exact hnd.1 h
    · simp [hnx]
    · simp [hpv]
    · rw [List.chain'_cons]
      refine ⟨⟨?_, ?_⟩, ?_⟩
      · simp [hnx, hne, hon]
      · simp [hpv, hnn.symm, hon]
      · exact chain_frame hch (fun x y hx hy hxy => hframe x y hx hxy (hmem y hy).2)
    · intro z hz
      rw [List.getLast?_cons_cons] at hz
      exact hframe z other (List.mem_of_mem_getLast? hz) (hcl z hz) hne.symm

/-- On a ring listed from `other`, `linkBefore` makes the receiver the block before
`other`, so the ring listed from the receiver continues with the old listing. -/
theorem linkBefore_ring_head {m : Mem} {this other : Ptr} {t : List Ptr}
    (hr : IsRing m (other :: t)) (hnot : this ∉ other :: t) (hs : SelfLinked m this) :
    ∃ m2, Block.linkBefore m this other = Except.ok m2 ∧ IsRing m2 (this :: other :: t) ∧
      ∀ q, (m2 q).map payload = (m q).map payload := by
  obtain ⟨tb, htb, hs1⟩ := nextOf_eq_some hs.1
  obtain ⟨tb2, htb2, hs2⟩ := prevOf_eq_some hs.2
  have : tb2 = tb := by rw [htb] at htb2; exact (Option.some.inj htb2).symm
  subst this
  have hne : this ≠ other := fun h => hnot (by simp [h])
  cases t with
  | nil =>
    rw [isRing_single] at hr
    obtain ⟨o, ho, hop⟩ := prevOf_eq_some hr.2
    have hp : m o.prev = some o := by rw [hop]; exact ho
    obtain ⟨m2, hm2, hnx, hpv, hpl⟩ :=
      linkBefore_spec m this other tb2 o o htb hs1 hs2 ho hp hne (by rw [hop]; exact hne)
    refine ⟨m2, hm2, ?_, hpl⟩
    rw [isRing_cons_cons]
    refine ⟨by simpa using hne, ⟨?_, ?_⟩, by simp, ?_⟩
    · simp [hnx, hop, hne]
    · simp [hpv, hne.symm]
    · intro z hz
      simp at hz
      subst hz
      refine ⟨?_, ?_⟩
      · simp [hnx, hop]
      · simp [hpv, hop]
  | cons n r =>
    rw [isRing_cons_cons] at hr
    obtain ⟨hnd, hadj, hch, hcl⟩ := hr
    obtain ⟨z, hz⟩ : ∃ z, (n :: r).getLast? = some z :=
      ⟨_, List.getLast?_eq_getLast _ (List.cons_ne_nil _ _)⟩
    have hzm : z ∈ n :: r := List.mem_of_mem_getLast? hz
    have hzo := hcl z hz
    obtain ⟨o, ho, hop⟩ := prevOf_eq_some hzo.2
    obtain ⟨zb, hzb, -⟩ := nextOf_eq_some hzo.1
    have hp : m o.prev = some zb := by rw [hop]; exact hzb
    have hmem : ∀ x, x ∈ n :: r → x ≠ other ∧ x ≠ this := by
      intro x hx
      refine ⟨?_, ?_⟩
      · rintro rfl
        exact (List.nodup_cons.mp hnd).1 hx
      · rintro rfl
        exact hnot (List.mem_cons_of_mem _ hx)
    obtain ⟨m2, hm2, hnx, hpv, hpl⟩ :=
      linkBefore_spec m this other tb2 o zb htb hs1 hs2 ho hp hne
        (by rw [hop]; exact fun h => (hmem z hzm).2 h.symm)
    have hframe : ∀ x y, x ∈ n :: r → y ∈ n :: r → Adj m x y → Adj m2 x y := by
      intro x y hx hy hxy
      refine ⟨?_, ?_⟩
      · rw [hnx, if_neg, if_neg (hmem x hx).2]
        · exact hxy.1
        · rw [hop]
          rintro rfl
          have := hxy.1
          rw [hzo.1] at this
          exact (hmem y hy).1 (Option.some.inj this).symm
      · rw [hpv, if_neg (hmem y hy).2, if_neg (hmem y hy).1]
        exact hxy.2
    refine ⟨m2, hm2, ?_, hpl⟩
    rw [isRing_cons_cons]
    refine ⟨?_, ⟨?_, ?_⟩, ?_, ?_⟩
    · exact List.nodup_cons.mpr ⟨hnot, hnd⟩
    · simp [hnx, hop, (hmem z hzm).2.symm]
    · simp [hpv, hne.symm]
    · rw [List.chain'_cons]
      refine ⟨⟨?_, ?_⟩, chain_frame hch hframe⟩
      · rw [hnx, if_neg, if_neg hne.symm]
        · exact hadj.1
        · rw [hop]
          exact fun h => (hmem z hzm).1 h.symm
      · rw [hpv, if_neg (hmem n (by simp)).2, if_neg (hmem n (by simp)).1]
        exact hadj.2
    · intro z2 hz2
      rw [List.getLast?_cons_cons, hz] at hz2
      have : z2 = z := (Option.some.inj hz2).symm
      subst this
      refine ⟨?_, ?_⟩
      · simp [hnx, hop]
      · simp [hpv, hop]

/-- After `unlink` of the block a ring of at least two blocks is listed from, the rest
of the listing is a ring, and the receiver is left self-linked. -/
theorem unlink_ring_head {m : Mem} {this n : Ptr} {r : List Ptr}
    (hr : IsRing m (this :: n :: r)) :
    ∃ m2, Block.unlink m this = Except.ok m2 ∧ IsRing m2 (n :: r) ∧ SelfLinked m2 this ∧
      ∀ q, (m2 q).map payload = (m q).map payload := by
  rw [isRing_cons_cons] at hr
  obtain ⟨hnd, hadj, hch, hcl⟩ := hr
  obtain ⟨z, hz⟩ : ∃ z, (n :: r).getLast? = some z :=
    ⟨_, List.getLast?_eq_getLast _ (List.cons_ne_nil _ _)⟩
  have hzm : z ∈ n :: r := List.mem_of_mem_getLast? hz
  have hzt := hcl z hz
  obtain ⟨t, ht, htn⟩ := nextOf_eq_some hadj.1
  obtain ⟨t2, ht2, htp⟩ := prevOf_eq_some hzt.2
  have : t2 = t := by rw [ht] at ht2; exact (Option.some.inj ht2).symm
  subst this
  obtain ⟨nb, hnb, -⟩ := prevOf_eq_some hadj.2
  obtain ⟨zb, hzb, -⟩ := nextOf_eq_some hzt.1
  have hmem : ∀ x, x ∈ n :: r → x ≠ this := by
    rintro x hx rfl
    exact (List.nodup_cons.mp hnd).1 hx
  obtain ⟨m2, hm2, hnx, hpv, hpl⟩ :=
    unlink_spec m this t2 nb zb ht (by rw [htn]; exact hmem n (by simp))
      (by rw [htp]; exact hmem z hzm) (by rw [htn]; exact hnb) (by rw [htp]; exact hzb)
  have hframe : ∀ x y, x ∈ n :: r → y ∈ n :: r → Adj m x y → Adj m2 x y := by
    intro x y hx hy hxy
    refine ⟨?_, ?_⟩
    · rw [hnx, if_neg (hmem x hx), if_neg]
      · exact hxy.1
      · rw [htp]
        rintro rfl
        have := hxy.1
        rw [hzt.1] at this
        exact hmem y hy (Option.some.inj this).symm
    · rw [hpv, if_neg (hmem y hy), if_neg]
      · exact hxy.2
      · rw [htn]
        rintro rfl
        have := hxy.2
        rw [hadj.2] at this
        exact hmem x hx (Option.some.inj this).symm
  refine ⟨m2, hm2, ⟨by simp, (List.nodup_cons.mp hnd).2, chain_frame hch hframe, ?_⟩,
    ⟨by simp [hnx], by simp [hpv]⟩, hpl⟩
  intro z2 hz2 a ha
  rw [hz] at hz2
  have h1 : z2 = z := (Option.some.inj hz2).symm
  have h2 : a = n := by simpa using ha.symm
  subst h1 h2
  refine ⟨?_, ?_⟩
  · simp [hnx, hmem z2 hzm, htp, htn]
  · simp [hpv, hmem a (by simp), htp, htn]

/-- At any position of the ring, `linkAfter` inserts the receiver right after
`other`. -/
theorem linkAfter_ring {m : Mem} {this other : Ptr} {pre post : List Ptr}
    (hr : IsRing m (pre ++ other :: post)) (hnot : this ∉ pre ++ other :: post)
    (hs : SelfLinked m this) :
    ∃ m2, Block.linkAfter m this other = Except.ok m2 ∧
      IsRing m2 (pre ++ other :: this :: post) ∧
      ∀ q, (m2 q).map payload = (m q).map payload := by
  have h1 : IsRing m (other :: (post ++ pre)) := isRing_rotate pre (other :: post) hr
  have h2 : this ∉ other :: (post ++ pre) := by
    simp only [List.mem_append, List.mem_cons] at hnot ⊢
    tauto
  obtain ⟨m2, hm2, hr2, hpl⟩ := linkAfter_ring_head h1 h2 hs
  exact ⟨m2, hm2, isRing_rotate (other :: this :: post) pre hr2, hpl⟩

/-- At any position of the ring, `linkBefore` inserts the receiver right before
`other`. -/
theorem linkBefore_ring {m : Mem} {this other : Ptr} {pre post : List Ptr}
    (hr : IsRing m (pre ++ other :: post)) (hnot : this ∉ pre ++ other :: post)
    (hs : SelfLinked m this) :
    ∃ m2, Block.linkBefore m this other = Except.ok m2 ∧
      IsRing m2 (pre ++ this :: other :: post) ∧
      ∀ q, (m2 q).map payload = (m q).map payload := by
  have h1 : IsRing m (other :: (post ++ pre)) := isRing_rotate pre (other :: post) hr
  have h2 : this ∉ other :: (post ++ pre) := by
    simp only [List.mem_append, List.mem_cons] at hnot ⊢
    tauto
  obtain ⟨m2, hm2, hr2, hpl⟩ := linkBefore_ring_head h1 h2 hs
  exact ⟨m2, hm2, isRing_rotate (this :: other :: post) pre hr2, hpl⟩

/-- At any position of a ring of at least two blocks, `unlink` removes exactly the
receiver from the ring. -/
theorem unlink_ring {m : Mem} {this : Ptr} {pre post : List Ptr}
    (hr : IsRing m (pre ++ this :: post)) (h2 : pre ++ post ≠ []) :
    ∃ m2, Block.unlink m this = Except.ok m2 ∧ IsRing m2 (pre ++ post) ∧
      SelfLinked m2 this ∧ ∀ q, (m2 q).map payload = (m q).map payload := by
  have h1 : IsRing m (this :: (post ++ pre)) := isRing_rotate pre (this :: post) hr
  cases hpp : post ++ pre with
  | nil =>
    exfalso
    apply h2
    have := List.append_eq_nil.mp hpp
    simp [this.1, this.2]
  | cons n r =>
    rw [hpp] at h1
    obtain ⟨m2, hm2, hr2, hsl, hpl⟩ := unlink_ring_head h1
    rw [← hpp] at hr2
    exact ⟨m2, hm2, isRing_rotate post pre hr2, hsl, hpl⟩

/-- What `free` does: the block loses its id, the index loses the entry of that id,
nothing else changes. -/
theorem free_spec (s : ResourceInMemoryCache) (b : Ptr) (blk : Block)
    (hb : s.blocks b = some blk) :
    ResourceInMemoryCache.free s b = Except.ok
      { s with mCache := ResourceInMemoryCache.erase s.mCache blk.id,
               blocks := store s.blocks b { blk with id := "" } } := by
  simp [ResourceInMemoryCache.free, deref, hb]

/-- Well-formedness of a ring only depends on the links of its blocks. -/
theorem isRing_congr {m m2 : Mem} {l : List Ptr}
    (h : ∀ q ∈ l, nextOf m2 q = nextOf m q ∧ prevOf m2 q = prevOf m q)
    (hr : IsRing m l) : IsRing m2 l := by
  obtain ⟨hne, hnd, hch, hcl⟩ := hr
  have hadj : ∀ x y, x ∈ l → y ∈ l → Adj m x y → Adj m2 x y := by
    intro x y hx hy hxy
    exact ⟨by rw [(h x hx).1]; exact hxy.1, by rw [(h y hy).2]; exact hxy.2⟩
  refine ⟨hne, hnd, chain_frame hch hadj, ?_⟩
  intro z hz a ha
  exact hadj z a (List.mem_of_mem_getLast? hz) (List.mem_of_mem_head? ha) (hcl z hz a ha)

/-- Every block of a ring is live. -/
theorem isRing_live {m : Mem} {l : List Ptr} (hr : IsRing m l) {x : Ptr} (hx : x ∈ l) :
    ∃ b, m x = some b := by
  obtain ⟨pre, post, rfl⟩ := List.append_of_mem hx
  have h := isRing_rotate pre (x :: post) hr
  cases hpp : post ++ pre with
  | nil =>
    rw [List.cons_append, hpp, isRing_single] at h
    obtain ⟨b, hb, -⟩ := nextOf_eq_some h.1
    exact ⟨b, hb⟩
  | cons n r =>
    rw [List.cons_append, hpp, isRing_cons_cons] at h
    obtain ⟨b, hb, -⟩ := nextOf_eq_some h.2.1.1
    exact ⟨b, hb⟩

/-- The block after the block a ring is listed from. -/
theorem isRing_head_next {m : Mem} {a : Ptr} {t : List Ptr} (hr : IsRing m (a :: t)) :
    nextOf m a = (t ++ [a]).head? := by
  cases t with
  | nil =>
    rw [isRing_single] at hr
    simpa using hr.1
  | cons n r =>
    rw [isRing_cons_cons] at hr
    simpa using hr.2.1.1

/-- The block a ring is listed from is live and its `next` is the head of the listing
from the block after it. -/
theorem isRing_head_block {m : Mem} {a : Ptr} {t : List Ptr} (hr : IsRing m (a :: t)) :
    ∃ b, m a = some b ∧ (t ++ [a]).head? = some b.next := by
  have h := isRing_head_next hr
  cases t with
  | nil =>
    obtain ⟨b, hb, hbn⟩ := nextOf_eq_some (by simpa using h : nextOf m a = some a)
    exact ⟨b, hb, by simp [hbn]⟩
  | cons n r =>
    obtain ⟨b, hb, hbn⟩ := nextOf_eq_some (by simpa using h : nextOf m a = some n)
    exact ⟨b, hb, by simp [hbn]⟩

theorem mHead_if_eq (s : ResourceInMemoryCache) (b nx : Ptr) :
    (if s.mHead = b then { s with mHead := nx } else s) =
      { s with mHead := if s.mHead = b then nx else s.mHead } := by
  split <;> rfl

/-- What `destroy` does to a block of a ring of at least two blocks: it returns the
former successor, the ring loses exactly that block, the index loses the id of the
block, the cursor moves on if it pointed to the block. -/
theorem destroy_spec (s : ResourceInMemoryCache) (b : Ptr) (blk : Block)
    (pre post : List Ptr) (hb : s.blocks b = some blk)
    (hr : IsRing s.blocks (pre ++ b :: post)) (h2 : pre ++ post ≠ []) :
    ∃ s2, ResourceInMemoryCache.destroy s b = Except.ok (s2, blk.next) ∧
      IsRing s2.blocks (pre ++ post) ∧ s2.blocks b = none ∧
      (∀ q, q ≠ b → (s2.blocks q).map payload = (s.blocks q).map payload) ∧
      s2.mCache = ResourceInMemoryCache.erase s.mCache blk.id ∧
      s2.mHead = (if s.mHead = b then blk.next else s.mHead) ∧
      s2.brk = s.brk ∧ s2.mBuffer = s.mBuffer ∧ s2.mBufferSize = s.mBufferSize := by
  have hnd : (pre ++ b :: post).Nodup := hr.2.1
  have hbnot : b ∉ pre ++ post := by
    intro hmem
    have := List.nodup_middle.mp hnd
    exact (List.nodup_cons.mp this).1 hmem
  -- free keeps the links
  have hr1 : IsRing (store s.blocks b { blk with id := "" }) (pre ++ b :: post) := by
    refine isRing_congr (fun q _ => ?_) hr
    by_cases hq : q = b
    · subst hq
      simp [nextOf, prevOf, hb]
    · simp [nextOf, prevOf, store_other _ _ _ _ hq]
  obtain ⟨m3, hm3, hr3, hsl, hpl3⟩ := unlink_ring hr1 h2
  obtain ⟨b3, hb3, hn3⟩ := nextOf_eq_some hsl.1
  obtain ⟨b3', hb3', hp3⟩ := prevOf_eq_some hsl.2
  have : b3' = b3 := by rw [hb3] at hb3'; exact (Option.some.inj hb3').symm
  subst this
  refine ⟨{ s with mHead := if s.mHead = b then blk.next else s.mHead,
                   mCache := ResourceInMemoryCache.erase s.mCache blk.id,
                   blocks := fun q => if q = b then none else m3 q }, ?_, ?_, ?_, ?_,
    rfl, rfl, rfl, rfl, rfl⟩
  · simp only [ResourceInMemoryCache.destroy, deref, hb, ok_bind, mHead_if_eq]
    rw [free_spec _ b blk (by simpa using hb)]
    simp only [ok_bind, hm3, ResourceInMemoryCache.delete, deref, hb3', hn3, hp3,
      gapidAssert]
    simp
  · refine isRing_congr (fun q hq => ?_) hr3
    have : q ≠ b := by
      rintro rfl
      exact hbnot hq
    simp [nextOf, prevOf, this]
  · simp
  · intro q hq
    simp only [hq, if_false]
    rw [hpl3 q, store_other _ _ _ _ hq]

/-! ## The cache state seen as a list of entries -/

@[simp] theorem entriesOf_cons (m : Mem) (p : Ptr) (ptrs : List Ptr) :
    entriesOf m (p :: ptrs) = (m p).map payload :: entriesOf m ptrs := rfl

@[simp] theorem entriesOf_nil (m : Mem) : entriesOf m [] = [] := rfl

theorem entriesOf_append (m : Mem) (l1 l2 : List Ptr) :
    entriesOf m (l1 ++ l2) = entriesOf m l1 ++ entriesOf m l2 := by
  simp [entriesOf]

theorem entriesOf_congr {m m2 : Mem} {ptrs : List Ptr}
    (h : ∀ q ∈ ptrs, (m2 q).map payload = (m q).map payload) :
    entriesOf m2 ptrs = entriesOf m ptrs :=
  List.map_congr_left h

theorem payload_eq_some {m : Mem} {p : Ptr} {e : Entry} (h : (m p).map payload = some e) :
    ∃ b, m p = some b ∧ payload b = e := by
  cases hp : m p with
  | none => simp [hp] at h
  | some b => exact ⟨b, rfl, by simpa [hp] using h⟩

theorem absWalk_id (size : Nat) (R : List Entry) :
    ∀ (c : Entry) (idx : ResourceId → Option Nat), (absWalk size c R idx).1.id = c.id := by
  induction R with
  | nil => intro c idx; rfl
  | cons n R ih =>
    intro c idx
    unfold absWalk
    split
    · rfl
    · rw [ih]

theorem absWalk_offset (size : Nat) (R : List Entry) :
    ∀ (c : Entry) (idx : ResourceId → Option Nat),
      (absWalk size c R idx).1.offset = c.offset := by
  induction R with
  | nil => intro c idx; rfl
  | cons n R ih =>
    intro c idx
    unfold absWalk
    split
    · rfl
    · rw [ih]

/-- The walk keeps the total size, and ends with a span of at least `size` bytes when
the entries have that many bytes in total. -/
theorem absWalk_total (size : Nat) (R : List Entry) :
    ∀ (c : Entry) (idx : ResourceId → Option Nat),
      (absWalk size c R idx).1.size + totalSize (absWalk size c R idx).2.1 =
        c.size + totalSize R ∧
      (size ≤ c.size + totalSize R → size ≤ (absWalk size c R idx).1.size) := by
  induction R with
  | nil =>
    intro c idx
    simp [absWalk, totalSize]
  | cons n R ih =>
    intro c idx
    unfold absWalk
    split
    · simp_all
    · rename_i hlt
      obtain ⟨h1, h2⟩ := ih { c with size := c.size + n.size }
        (ResourceInMemoryCache.erase idx n.id)
      simp only [totalSize, List.map_cons, List.sum_cons] at h1 h2 ⊢
      refine ⟨by omega, fun h => h2 (by omega)⟩

/-- A list of distinct addresses below `n` has at most `n` members. -/
theorem length_le_of_nodup_lt {l : List Ptr} {n : Nat} (hnd : l.Nodup)
    (h : ∀ p ∈ l, p < n) : l.length ≤ n := by
  have hsub : l.toFinset ⊆ Finset.range n := by
    intro p hp
    simp only [List.mem_toFinset] at hp
    simpa using h p hp
  have := Finset.card_le_card hsub
  rwa [List.toFinset_card_of_nodup hnd, Finset.card_range] at this

/-- The eviction walk of `put` returns and does on the ring what `absWalk` does on the
entries. -/
theorem evictLoop_sim (size : Nat) :
    ∀ (R : List Entry) (s : ResourceInMemoryCache) (c : Entry) (r : List Ptr) (fuel : Nat),
      Rep s (s.mHead :: r) (c :: R) → size ≤ c.size + totalSize R → R.length < fuel →
      ∃ s2 r2, ResourceInMemoryCache.evictLoop size fuel s = Except.ok s2 ∧
        Rep s2 (s.mHead :: r2)
          ((absWalk size c R s.mCache).1 :: (absWalk size c R s.mCache).2.1) ∧
        s2.mCache = (absWalk size c R s.mCache).2.2 ∧ s2.mHead = s.mHead ∧
        s2.brk = s.brk ∧ s2.mBuffer = s.mBuffer ∧ s2.mBufferSize = s.mBufferSize := by
  intro R
  induction R with
  | nil =>
    intro s c r fuel hrep hsz hfuel
    obtain ⟨f, rfl⟩ : ∃ f, fuel = f + 1 := ⟨fuel - 1, by omega⟩
    obtain ⟨hring, hhead, hbnd, hent⟩ := hrep
    simp only [entriesOf_cons, List.map_cons, List.map_nil, List.cons.injEq] at hent
    obtain ⟨hb, hhb, hpay⟩ := payload_eq_some hent.1
    have hcs : size ≤ hb.size := by
      have : hb.size = c.size := by rw [← hpay]; rfl
      simp [totalSize] at hsz
      omega
    refine ⟨s, r, ?_, ⟨hring, hhead, hbnd, ?_⟩, rfl, rfl, rfl, rfl, rfl⟩
    · simp [ResourceInMemoryCache.evictLoop, deref, hhb, hcs]
    · simp only [absWalk, entriesOf_cons, List.map_cons, List.map_nil, List.cons.injEq]
      exact hent
  | cons nE R ih =>
    intro s c r fuel hrep hsz hfuel
    obtain ⟨f, rfl⟩ : ∃ f, fuel = f + 1 := ⟨fuel - 1, by omega⟩
    obtain ⟨hring, hhead, hbnd, hent⟩ := hrep
    cases r with
    | nil => simp at hent
    | cons n r =>
      simp only [entriesOf_cons, List.map_cons, List.cons.injEq] at hent
      obtain ⟨hent1, hent2, hent3⟩ := hent
      obtain ⟨hb, hhb, hpay⟩ := payload_eq_some hent1
      obtain ⟨nB, hnB, hpayn⟩ := payload_eq_some hent2
      have hbs : hb.size = c.size := by rw [← hpay]; rfl
      by_cases hcs : size ≤ c.size
      · refine ⟨s, n :: r, ?_, ⟨hring, hhead, hbnd, ?_⟩, ?_, rfl, rfl, rfl, rfl⟩
        · simp [ResourceInMemoryCache.evictLoop, deref, hhb, hbs, hcs]
        · simp only [absWalk, if_pos hcs, entriesOf_cons, List.map_cons, List.cons.injEq]
          exact ⟨hent1, hent2, hent3⟩
        · simp [absWalk, if_pos hcs]
      · have hring' := (isRing_cons_cons _ _ _ _).mp hring
        obtain ⟨hnd, hadj, -, -⟩ := hring'
        have hne : n ≠ s.mHead := by
          intro h
          have := (List.nodup_cons.mp hnd).1
          exact this (by simp [h])
        have hnext : hb.next = n := by
          have := hadj.1
          simpa [nextOf, hhb] using this
        -- the merged span
        let s1 : ResourceInMemoryCache :=
          { s with blocks := store s.blocks s.mHead { hb with size := hb.size + nB.size } }
        have hs1n : s1.blocks n = some nB := by
          show store s.blocks s.mHead _ n = some nB
          rw [store_other _ _ _ _ hne]; exact hnB
        have hr1 : IsRing s1.blocks ([s.mHead] ++ n :: r) := by
          refine isRing_congr (fun q _ => ?_) hring
          by_cases hq : q = s.mHead
          · subst hq
            simp [s1, nextOf, prevOf, hhb]
          · simp [s1, nextOf, prevOf, store_other _ _ _ _ hq]
        obtain ⟨s2, hd, hr2, -, hpl2, hc2, hh2, hbrk2, hbuf2, hsz2⟩ :=
          destroy_spec s1 n nB [s.mHead] r hs1n hr1 (by simp)
        have hh2' : s2.mHead = s.mHead := by
          rw [hh2]
          show (if s.mHead = n then nB.next else s.mHead) = s.mHead
          rw [if_neg (fun h => hne h.symm)]
        have hrep2 : Rep s2 (s2.mHead :: r) ({ c with size := c.size + nE.size } :: R) := by
          rw [hh2']
          refine ⟨hr2, by simp [hh2'], ?_, ?_⟩
          · intro p hp
            rw [hbrk2]
            exact hbnd p (by
              simp only [List.mem_cons] at hp ⊢
              tauto)
          · simp only [entriesOf_cons, List.map_cons, List.cons.injEq]
            refine ⟨?_, ?_⟩
            · rw [hpl2 _ (fun h => hne h.symm)]
              show (store s.blocks s.mHead _ s.mHead).map payload = _
              rw [store_same]
              simp only [Option.map_some', Option.some.injEq]
              rw [← hpay, ← hpayn]
              rfl
            · rw [← hent3]
              refine entriesOf_congr (fun q hq => ?_)
              have hqn : q ≠ n := by
                rintro rfl
                have := (List.nodup_cons.mp (List.nodup_cons.mp hnd).2).1
                exact this hq
              have hqh : q ≠ s.mHead := by
                rintro rfl
                exact (List.nodup_cons.mp hnd).1 (List.mem_cons_of_mem _ hq)
              rw [hpl2 q hqn]
              show (store s.blocks s.mHead _ q).map payload = _
              rw [store_other _ _ _ _ hqh]
        have hsz' : size ≤ ({ c with size := c.size + nE.size } : Entry).size + totalSize R := by
          simp only [totalSize, List.map_cons, List.sum_cons] at hsz ⊢
          omega
        obtain ⟨s3, r3, he3, hrep3, hc3, hh3, hbrk3, hbuf3, hsz3⟩ :=
          ih s2 _ r f hrep2 hsz' (by simpa using hfuel)
        have hid : nB.id = nE.id := by rw [← hpayn]; rfl
        have hc2' : s2.mCache = ResourceInMemoryCache.erase s.mCache nE.id := by
          rw [hc2, hid]
        refine ⟨s3, r3, ?_, ?_, ?_, ?_, ?_, ?_, ?_⟩
        · have hcs' : ¬ size ≤ hb.size := by rw [hbs]; exact hcs
          subst hnext
          simp only [ResourceInMemoryCache.evictLoop, deref, hhb, ok_bind, if_neg hcs', hnB]
          show (ResourceInMemoryCache.destroy s1 hb.next >>= _) = _
          rw [hd]
          exact he3
        · rw [hh2', hc2'] at hrep3
          simpa only [absWalk, if_neg hcs] using hrep3
        · rw [hc3, hc2']
          simp only [absWalk, if_neg hcs]
        · rw [hh3, hh2']
        · rw [hbrk3, hbrk2]
        · rw [hbuf3, hbuf2]
        · rw [hsz3, hsz2]

theorem rep_length {s : ResourceInMemoryCache} {ptrs : List Ptr} {L : List Entry}
    (h : Rep s ptrs L) : ptrs.length = L.length := by
  have := congrArg List.length h.2.2.2
  simpa [entriesOf] using this

theorem rep_length_le {s : ResourceInMemoryCache} {ptrs : List Ptr} {L : List Entry}
    (h : Rep s ptrs L) : L.length ≤ s.brk := by
  rw [← rep_length h]
  exact length_le_of_nodup_lt h.1.2.1 h.2.2.1

/-- A `put` of a resource that fits returns and does on the ring, listed from the cursor,
what `absPut` does on the entries; the bytes are copied to the offset of the cursor
block. -/
theorem put_sim (s : ResourceInMemoryCache) (r : List Ptr) (c : Entry) (R : List Entry)
    (id : ResourceId) (size : Nat) (data : Nat → Byte)
    (hrep : Rep s (s.mHead :: r) (c :: R)) (hsz : size ≤ s.mBufferSize)
    (htot : size ≤ totalSize (c :: R)) :
    ∃ s2 ptrs2, ResourceInMemoryCache.put s id size data = Except.ok s2 ∧
      Rep s2 ptrs2 (absPut s.mBufferSize id size (c :: R) s.mCache).1 ∧
      s2.mCache = (absPut s.mBufferSize id size (c :: R) s.mCache).2 ∧
      s2.mBuffer = ResourceInMemoryCache.copyIn s.mBuffer s.mBufferSize c.offset data size ∧
      s2.mBufferSize = s.mBufferSize := by
  obtain ⟨hring, hhead, hbnd, hent⟩ := hrep
  have hent' := hent
  simp only [entriesOf_cons, List.map_cons, List.cons.injEq] at hent'
  obtain ⟨hent1, hent2⟩ := hent'
  obtain ⟨hb, hhb, hpay⟩ := payload_eq_some hent1
  -- step 1: the cursor block is evicted
  let s1 : ResourceInMemoryCache :=
    { s with mCache := ResourceInMemoryCache.erase s.mCache hb.id,
             blocks := store s.blocks s.mHead { hb with id := "" } }
  have hfree : ResourceInMemoryCache.free s s.mHead = Except.ok s1 := free_spec s _ hb hhb
  have hrep1 : Rep s1 (s1.mHead :: r) ({ c with id := "" } :: R) := by
    refine ⟨?_, rfl, hbnd, ?_⟩
    · refine isRing_congr (fun q _ => ?_) hring
      by_cases hq : q = s.mHead
      · subst hq
        simp [s1, nextOf, prevOf, hhb]
      · simp [s1, nextOf, prevOf, store_other _ _ _ _ hq]
    · simp only [entriesOf_cons, List.map_cons, List.cons.injEq]
      refine ⟨?_, ?_⟩
      · show (store s.blocks s.mHead _ s.mHead).map payload = _
        rw [store_same, ← hpay]
        rfl
      · rw [← hent2]
        refine entriesOf_congr (fun q hq => ?_)
        have hqh : q ≠ s.mHead := by
          rintro rfl
          exact (List.nodup_cons.mp hring.2.1).1 hq
        show (store s.blocks s.mHead _ q).map payload = _
        rw [store_other _ _ _ _ hqh]
  have hidc : hb.id = c.id := by rw [← hpay]; rfl
  have hlen : R.length < s1.brk := by
    have := rep_length_le hrep1
    simpa using this
  have htot1 : size ≤ ({ c with id := "" } : Entry).size + totalSize R := by
    simpa [totalSize] using htot
  -- step 2: the walk
  obtain ⟨s2, r2, hwalk, hrep2, hc2, hh2, hbrk2, hbuf2, hsz2⟩ :=
    evictLoop_sim size R s1 _ r s1.brk hrep1 htot1 hlen
  have hmc1 : s1.mCache = ResourceInMemoryCache.erase s.mCache c.id := by
    show ResourceInMemoryCache.erase s.mCache hb.id = _
    rw [hidc]
  rw [hmc1] at hrep2 hc2
  have hh2' : s2.mHead = s.mHead := hh2
  have hbrk2' : s2.brk = s.brk := hbrk2
  have hh1 : s1.mHead = s.mHead := rfl
  rw [hh1] at hrep2
  generalize hw : absWalk size { c with id := "" } R
    (ResourceInMemoryCache.erase s.mCache c.id) = w at hrep2 hc2
  have hwsz : size ≤ w.1.size := by
    have := (absWalk_total size R { c with id := "" }
      (ResourceInMemoryCache.erase s.mCache c.id)).2 htot1
    rwa [hw] at this
  have hwid : w.1.id = "" := by
    have := absWalk_id size R { c with id := "" } (ResourceInMemoryCache.erase s.mCache c.id)
    rwa [hw] at this
  have hwoff : w.1.offset = c.offset := by
    have := absWalk_offset size R { c with id := "" }
      (ResourceInMemoryCache.erase s.mCache c.id)
    rwa [hw] at this
  obtain ⟨hring2, -, hbnd2, hent2'⟩ := hrep2
  simp only [entriesOf_cons, List.map_cons, List.cons.injEq] at hent2'
  obtain ⟨hent21, hent22⟩ := hent2'
  obtain ⟨span, hspan, hspay⟩ := payload_eq_some hent21
  have hspan' : s2.blocks s2.mHead = some span := by rw [hh2']; exact hspan
  have hsps : span.size = w.1.size := by rw [← hspay]; rfl
  have hspo : span.offset = c.offset := by rw [← hwoff, ← hspay]; rfl
  have hspi : span.id = "" := by rw [← hwid, ← hspay]; rfl
  -- step 3: the new block
  have hnot : s2.brk ∉ s.mHead :: r2 := fun h => Nat.lt_irrefl _ (hbnd2 _ h)
  have hne : ∀ q ∈ s.mHead :: r2, q ≠ s2.brk := by
    rintro q hq rfl
    exact hnot hq
  let m3 : Mem := store s2.blocks s2.brk (Block.mk3 s2.brk span.offset size id)
  have hr3 : IsRing m3 (s.mHead :: r2) := by
    refine isRing_congr (fun q hq => ?_) hring2
    simp [m3, nextOf, prevOf, store_other _ _ _ _ (hne q hq)]
  have hs3 : SelfLinked m3 s2.brk := by
    simp [SelfLinked, m3, nextOf, prevOf, Block.mk3]
  obtain ⟨m4, hlb, hr4, hpl4⟩ := linkBefore_ring_head hr3 hnot hs3
  have hpl4h : (m4 s.mHead).map payload = some w.1 := by
    rw [hpl4]
    show (store s2.blocks s2.brk _ s.mHead).map payload = _
    rw [store_other _ _ _ _ (hne _ (by simp))]
    exact hent21
  obtain ⟨t, ht, htpay⟩ := payload_eq_some hpl4h
  simp only [ResourceInMemoryCache.put, if_neg (not_lt.mpr hsz), hfree, ok_bind, hwalk,
    deref, hspan', ResourceInMemoryCache.newBlock]
  rw [hh2']
  have hlb' : Block.linkBefore (store s2.blocks s2.brk (Block.mk3 s2.brk span.offset size id))
      s2.brk s.mHead = Except.ok m4 := hlb
  rw [hlb']
  simp only [ok_bind]
  have hhb2 : s.mHead ≠ s2.brk := hne _ (by simp)
  obtain ⟨nbB, hnbB, hnbn⟩ := nextOf_eq_some (isRing_head_next hr4)
  have hnbpay : (m4 s2.brk).map payload =
      some { offset := c.offset, size := size, id := id } := by
    rw [hpl4]
    show (store s2.blocks s2.brk _ s2.brk).map payload = _
    rw [store_same, ← hspo]
    rfl
  have hrest : entriesOf m4 r2 = w.2.1.map some := by
    rw [← hent22]
    refine entriesOf_congr (fun q hq => ?_)
    rw [hpl4]
    show (store s2.blocks s2.brk _ q).map payload = _
    rw [store_other _ _ _ _ (hne q (List.mem_cons_of_mem _ hq))]
  have hbnd3 : ∀ p ∈ (s.mHead :: r2) ++ [s2.brk], p < s2.brk + 1 := by
    intro p hp
    rcases List.mem_append.mp hp with hp | hp
    · exact Nat.lt_succ_of_lt (hbnd2 p hp)
    · simp only [List.mem_singleton] at hp
      rw [hp]
      exact Nat.lt_succ_self _
  have hsz2' : s2.mBufferSize = s.mBufferSize := hsz2
  have hbuf2' : s2.mBuffer = s.mBuffer := hbuf2
  by_cases hA : size < span.size
  · have hA' : size < w.1.size := by rw [← hsps]; exact hA
    simp only [if_pos hA, ht, ok_bind]
    rw [store_other _ _ _ _ hhb2.symm, hnbB]
    simp only [ok_bind]
    refine ⟨_, (s.mHead :: r2) ++ [s2.brk], rfl, ⟨?_, ?_, hbnd3, ?_⟩, ?_, ?_, hsz2⟩
    · refine isRing_rotate [s2.brk] (s.mHead :: r2) (isRing_congr (fun q _ => ?_) hr4)
      by_cases hq : q = s.mHead
      · subst hq
        simp [nextOf, prevOf, ht]
      · simp [nextOf, prevOf, store_other _ _ _ _ hq]
    · simpa using hnbn.symm
    · simp only [absPut, hw, if_pos hA', List.cons_append, entriesOf_cons, entriesOf_append,
        List.map_cons, List.map_append, List.map_nil, entriesOf_nil, store_same,
        Option.map_some', List.cons.injEq]
      refine ⟨?_, ?_⟩
      · have hti : t.id = "" := by
          have : (payload t).id = w.1.id := by rw [htpay]
          rw [hwid] at this
          exact this
        simp [payload, hti, hspo, hwoff, hsps, hsz2']
      · congr 1
        · rw [← hrest]
          refine entriesOf_congr (fun q hq => ?_)
          have hqh : q ≠ s.mHead := by
            rintro rfl
            exact (List.nodup_cons.mp hring2.2.1).1 hq
          rw [store_other _ _ _ _ hqh]
        · rw [store_other _ _ _ _ hhb2.symm, hnbpay, hwoff]
    · simp only [absPut, hw, if_pos hA']
      rw [hc2, hspo, hwoff]
    · show ResourceInMemoryCache.copyIn s2.mBuffer s2.mBufferSize span.offset data size = _
      rw [hbuf2', hsz2', hspo]
  · have hA' : ¬ size < w.1.size := by rw [← hsps]; exact hA
    simp only [if_neg hA]
    let s4 : ResourceInMemoryCache :=
      { blocks := m4, brk := s2.brk + 1, mHead := s.mHead, mCache := s2.mCache,
        mBuffer := s2.mBuffer, mBufferSize := s2.mBufferSize }
    obtain ⟨s5, hd, hr5, -, hpl5, hc5, hh5, hbrk5, hbuf5, hsz5⟩ :=
      destroy_spec s4 s.mHead t [s2.brk] r2 ht hr4 (by simp)
    show ∃ s2_1 ptrs2, (ResourceInMemoryCache.destroy s4 s.mHead >>= _) = _ ∧ _
    rw [hd]
    simp only [ok_bind]
    have hr5' : IsRing s5.blocks (s2.brk :: r2) := hr5
    obtain ⟨b5, hb5, hb5n⟩ := isRing_head_block hr5'
    rw [hb5]
    simp only [ok_bind]
    refine ⟨_, r2 ++ [s2.brk], rfl, ⟨?_, ?_, ?_, ?_⟩, ?_, ?_, ?_⟩
    · exact isRing_rotate [s2.brk] r2 hr5'
    · exact hb5n
    · intro p hp
      rw [hbrk5]
      exact hbnd3 p (by
        simp only [List.mem_append, List.mem_cons] at hp ⊢
        tauto)
    · simp only [absPut, hw, if_neg hA', entriesOf_append, entriesOf_cons, entriesOf_nil,
        List.map_append, List.map_cons, List.map_nil]
      congr 1
      · rw [← hrest]
        refine entriesOf_congr (fun q hq => ?_)
        have hqh : q ≠ s.mHead := by
          rintro rfl
          exact (List.nodup_cons.mp hring2.2.1).1 hq
        exact hpl5 q hqh
      · rw [hpl5 _ hhb2.symm, hnbpay, hwoff]
    · simp only [absPut, hw, if_neg hA']
      have hti : t.id = "" := by
        have : (payload t).id = w.1.id := by rw [htpay]
        rw [hwid] at this
        exact this
      rw [hc5, hti, hspo, hwoff]
      show ResourceInMemoryCache.insert (ResourceInMemoryCache.erase s2.mCache "") id c.offset
        = _
      rw [hc2]
    · show ResourceInMemoryCache.copyIn s5.mBuffer s5.mBufferSize span.offset data size = _
      rw [hbuf5, hsz5, hspo]
      show ResourceInMemoryCache.copyIn s2.mBuffer s2.mBufferSize c.offset data size = _
      rw [hbuf2', hsz2']
    · show s5.mBufferSize = _
      rw [hsz5]
      exact hsz2

/-- The loop of `clear` returns and leaves the cursor block alone in its ring. -/
theorem clearLoop_sim :
    ∀ (r : List Ptr) (s : ResourceInMemoryCache) (fuel : Nat),
      IsRing s.blocks (s.mHead :: r) → r.length < fuel →
      ∃ s2, ResourceInMemoryCache.clearLoop fuel s = Except.ok s2 ∧
        IsRing s2.blocks [s.mHead] ∧ s2.mHead = s.mHead ∧ s2.brk = s.brk ∧
        s2.mBuffer = s.mBuffer ∧ s2.mBufferSize = s.mBufferSize := by
  intro r
  induction r with
  | nil =>
    intro s fuel hring hfuel
    obtain ⟨f, rfl⟩ : ∃ f, fuel = f + 1 := ⟨fuel - 1, by omega⟩
    obtain ⟨hb, hhb, hn⟩ := isRing_head_block hring
    have hn' : hb.next = s.mHead := by simpa using hn.symm
    refine ⟨s, ?_, hring, rfl, rfl, rfl, rfl⟩
    simp [ResourceInMemoryCache.clearLoop, deref, hhb, hn']
  | cons n r ih =>
    intro s fuel hring hfuel
    obtain ⟨f, rfl⟩ : ∃ f, fuel = f + 1 := ⟨fuel - 1, by omega⟩
    obtain ⟨hb, hhb, hn⟩ := isRing_head_block hring
    have hn' : hb.next = n := by simpa using hn.symm
    have hne : n ≠ s.mHead := by
      intro h
      exact (List.nodup_cons.mp hring.2.1).1 (by simp [h])
    obtain ⟨nB, hnB⟩ := isRing_live hring (show n ∈ s.mHead :: n :: r by simp)
    obtain ⟨s2, hd, hr2, -, -, -, hh2, hbrk2, hbuf2, hsz2⟩ :=
      destroy_spec s n nB [s.mHead] r hnB hring (by simp)
    have hh2' : s2.mHead = s.mHead := by
      rw [hh2, if_neg (fun h => hne h.symm)]
    have hr2' : IsRing s2.blocks (s2.mHead :: r) := by rw [hh2']; exact hr2
    obtain ⟨s3, hl3, hr3, hh3, hbrk3, hbuf3, hsz3⟩ := ih s2 f hr2' (by simpa using hfuel)
    refine ⟨s3, ?_, ?_, ?_, ?_, ?_, ?_⟩
    · simp only [ResourceInMemoryCache.clearLoop, deref, hhb, ok_bind, hn', if_neg hne, hd]
      exact hl3
    · rw [← hh2']; exact hr3
    · rw [hh3, hh2']
    · rw [hbrk3, hbrk2]
    · rw [hbuf3, hbuf2]
    · rw [hsz3, hsz2]

/-- On a well-formed state `clear` returns: the cursor block becomes the only block
of the ring, free and spanning the buffer, and the index is empty. -/
theorem clear_spec (s : ResourceInMemoryCache) (ptrs : List Ptr) (hwf : WellFormed s ptrs) :
    ∃ s2, ResourceInMemoryCache.clear s = Except.ok s2 ∧
      s2.blocks s.mHead = some (wholeBlock s.mHead s.mBufferSize) ∧
      s2.mHead = s.mHead ∧ s2.mCache = (fun _ => none) ∧ s2.brk = s.brk ∧
      s2.mBuffer = s.mBuffer ∧ s2.mBufferSize = s.mBufferSize := by
  obtain ⟨hring, hhead, hbnd⟩ := hwf
  cases ptrs with
  | nil => simp at hhead
  | cons h r =>
    have hh : h = s.mHead := by simpa using hhead
    subst hh
    have hlen : (s.mHead :: r).length ≤ s.brk := length_le_of_nodup_lt hring.2.1 hbnd
    obtain ⟨s2, hl, hr2, hh2, hbrk2, hbuf2, hsz2⟩ :=
      clearLoop_sim r s s.brk hring (by simpa using hlen)
    obtain ⟨b, hb, hbn⟩ := isRing_head_block hr2
    have hbn' : b.next = s.mHead := by simpa using hbn.symm
    have hbp : b.prev = s.mHead := by
      have := ((isRing_single _ _).mp hr2).2
      simpa [prevOf, hb] using this
    have hb' : s2.blocks s2.mHead = some b := by rw [hh2]; exact hb
    have hcl : ResourceInMemoryCache.clear s = Except.ok
        { s2 with blocks := store s2.blocks s2.mHead
                    { b with id := "", offset := 0, size := s2.mBufferSize },
                  mCache := fun _ => none } := by
      simp only [ResourceInMemoryCache.clear, hl, ok_bind]
      rw [free_spec s2 s2.mHead b hb']
      simp only [ok_bind, deref, store_same, store_store]
    refine ⟨_, hcl, ?_, hh2, rfl, hbrk2, hbuf2, hsz2⟩
    simp [hh2, wholeBlock, hbn', hbp, hsz2]

/-- The result of `clear` on a state whose cursor block is already alone in its ring. -/
theorem clear_single (s : ResourceInMemoryCache) (b : Block)
    (hb : s.blocks s.mHead = some b) (hn : b.next = s.mHead) (hbrk : 0 < s.brk) :
    ResourceInMemoryCache.clear s = Except.ok
      { s with blocks := store s.blocks s.mHead { b with offset := 0, size := s.mBufferSize,
                                                         id := "" },
               mCache := fun _ => none } := by
  obtain ⟨f, hf⟩ : ∃ f, s.brk = f + 1 :=
    Nat.exists_eq_succ_of_ne_zero (Nat.pos_iff_ne_zero.mp hbrk)
  have hl : ResourceInMemoryCache.clearLoop s.brk s = Except.ok s := by
    rw [hf]
    simp [ResourceInMemoryCache.clearLoop, deref, hb, hn]
  simp only [ResourceInMemoryCache.clear, hl, ok_bind]
  rw [free_spec s s.mHead b hb]
  simp only [ok_bind, deref, store_same, store_store]

/-! ## Bytes -/

theorem add_mod_inj {B o u v : Nat} (hu : u < B) (hv : v < B)
    (h : (o + u) % B = (o + v) % B) : u = v :=
  Nat.ModEq.eq_of_lt_of_lt (Nat.ModEq.add_left_cancel' o h) hu hv

/-- A byte that was copied in is read back, when the copy is no longer than the
buffer. -/
theorem copyIn_read (buf : Nat → Byte) (B start : Nat) (data : Nat → Byte) :
    ∀ (n i : Nat), n ≤ B → i < n →
      ResourceInMemoryCache.copyIn buf B start data n ((start + i) % B) = data i := by
  intro n
  induction n with
  | zero => intro i _ hi; omega
  | succ n ih =>
    intro i hn hi
    simp only [ResourceInMemoryCache.copyIn]
    by_cases hin : i = n
    · subst hin
      simp
    · have hne : (start + i) % B ≠ (start + n) % B := by
        intro h
        exact hin (add_mod_inj (by omega) (by omega) h)
      rw [if_neg hne]
      exact ih i (by omega) (by omega)

/-- A byte outside the span of a copy is unchanged. -/
theorem copyIn_other (buf : Nat → Byte) (B start : Nat) (data : Nat → Byte) (a : Nat) :
    ∀ (n : Nat), (∀ j, j < n → a ≠ (start + j) % B) →
      ResourceInMemoryCache.copyIn buf B start data n a = buf a := by
  intro n
  induction n with
  | zero => intro _; rfl
  | succ n ih =>
    intro h
    simp only [ResourceInMemoryCache.copyIn]
    rw [if_neg (h n (by omega))]
    exact ih (fun j hj => h j (by omega))

/-- Reading back the span that was just copied in gives the data. -/
theorem copyOut_copyIn (buf : Nat → Byte) (B start size : Nat) (data : Nat → Byte)
    (h : size ≤ B) :
    ResourceInMemoryCache.copyOut (ResourceInMemoryCache.copyIn buf B start data size) B
      start size = (List.range size).map data := by
  unfold ResourceInMemoryCache.copyOut
  refine List.map_congr_left (fun i hi => ?_)
  exact copyIn_read buf B start data size i h (List.mem_range.mp hi)

/-! ## The invariant of the cache -/

@[simp] theorem laidOut_nil (B o : Nat) : laidOut B o [] ↔ True := Iff.rfl

@[simp] theorem laidOut_cons (B o : Nat) (e : Entry) (L : List Entry) :
    laidOut B o (e :: L) ↔ e.offset % B = o % B ∧ laidOut B (o + e.size) L := Iff.rfl

theorem laidOut_congr (B : Nat) (L : List Entry) :
    ∀ (o o2 : Nat), o % B = o2 % B → laidOut B o L → laidOut B o2 L := by
  induction L with
  | nil => intro _ _ _ _; trivial
  | cons e L ih =>
    intro o o2 h hl
    refine ⟨hl.1.trans h, ih (o + e.size) (o2 + e.size) ?_ hl.2⟩
    rw [Nat.add_mod, h, ← Nat.add_mod]

theorem laidOut_append (B : Nat) (L1 L2 : List Entry) :
    ∀ (o : Nat), laidOut B o (L1 ++ L2) ↔ laidOut B o L1 ∧ laidOut B (o + totalSize L1) L2 := by
  induction L1 with
  | nil => intro o; simp [totalSize]
  | cons e L ih =>
    intro o
    rw [List.cons_append, laidOut_cons, laidOut_cons, ih]
    simp only [totalSize, List.map_cons, List.sum_cons, and_assoc, Nat.add_assoc]

theorem absWalk_laidOut (B size : Nat) (R : List Entry) :
    ∀ (c : Entry) (idx : ResourceId → Option Nat) (o : Nat), laidOut B o (c :: R) →
      laidOut B o ((absWalk size c R idx).1 :: (absWalk size c R idx).2.1) := by
  induction R with
  | nil => intro c idx o h; exact h
  | cons n R ih =>
    intro c idx o h
    unfold absWalk
    split
    · exact h
    · apply ih
      obtain ⟨h1, h2, h3⟩ := h
      refine ⟨h1, ?_⟩
      show laidOut B (o + (c.size + n.size)) R
      rw [← Nat.add_assoc]
      exact h3

/-- The function `absPut` keeps the layout and the total size. -/
theorem absPut_inv (B : Nat) (id : ResourceId) (size : Nat) (c : Entry) (R : List Entry)
    (idx : ResourceId → Option Nat) (o : Nat) (hl : laidOut B o (c :: R))
    (ht : totalSize (c :: R) = B) (hsz : size ≤ B) :
    laidOut B (o + size) (absPut B id size (c :: R) idx).1 ∧
      totalSize (absPut B id size (c :: R) idx).1 = B := by
  have hl0 : laidOut B o ({ c with id := "" } :: R) := hl
  have hw := absWalk_laidOut B size R { c with id := "" }
    (ResourceInMemoryCache.erase idx c.id) o hl0
  have ht0 : c.size + totalSize R = B := by
    simpa [totalSize] using ht
  obtain ⟨htw, hge⟩ := absWalk_total size R { c with id := "" }
    (ResourceInMemoryCache.erase idx c.id)
  have hge' := hge (by show size ≤ c.size + totalSize R; omega)
  have htw' : (absWalk size { c with id := "" } R
      (ResourceInMemoryCache.erase idx c.id)).1.size +
      totalSize (absWalk size { c with id := "" } R
        (ResourceInMemoryCache.erase idx c.id)).2.1 = B := by
    rw [htw]; exact ht0
  simp only [absPut]
  generalize absWalk size { c with id := "" } R (ResourceInMemoryCache.erase idx c.id) = w
    at hw hge' htw'
  obtain ⟨hw1, hw2⟩ := hw
  have hnew : laidOut B (o + size + (w.1.size - size) + totalSize w.2.1)
      [{ offset := w.1.offset, size := size, id := id }] := by
    refine ⟨?_, trivial⟩
    show w.1.offset % B = _
    rw [hw1]
    have : o + size + (w.1.size - size) + totalSize w.2.1 = o + B := by omega
    rw [this, Nat.add_mod_right]
  split
  · rename_i hlt
    refine ⟨?_, ?_⟩
    · rw [List.cons_append, laidOut_cons, laidOut_append]
      refine ⟨?_, ?_, ?_⟩
      · show (w.1.offset + size) % B % B = (o + size) % B
        rw [Nat.mod_mod, Nat.add_mod, hw1, ← Nat.add_mod]
      · have : o + size + (w.1.size - size) = o + w.1.size := by omega
        show laidOut B (o + size + (w.1.size - size)) w.2.1
        rw [this]
        exact hw2
      · exact hnew
    · simp only [totalSize, List.map_cons, List.sum_cons, List.map_append, List.sum_append,
        List.map_nil, List.sum_nil] at htw' ⊢
      omega
  · rename_i hlt
    have heq : w.1.size = size := by omega
    refine ⟨?_, ?_⟩
    · rw [laidOut_append]
      refine ⟨?_, ?_⟩
      · rw [← heq]
        exact hw2
      · have : o + size + (w.1.size - size) + totalSize w.2.1 = o + size + totalSize w.2.1 := by
          omega
        rw [this] at hnew
        exact hnew
    · simp only [totalSize, List.map_cons, List.sum_cons, List.map_append, List.sum_append,
        List.map_nil, List.sum_nil] at htw' ⊢
      omega

theorem absPut_index (B : Nat) (id : ResourceId) (size : Nat) (c : Entry) (R : List Entry)
    (idx : ResourceId → Option Nat) :
    (absPut B id size (c :: R) idx).2 id = some c.offset := by
  simp only [absPut]
  split <;> simp [ResourceInMemoryCache.insert, absWalk_offset]

/-- The ring of a state that satisfies the invariant is listed from the cursor. -/
theorem rep_cons {s : ResourceInMemoryCache} {ptrs : List Ptr} {L : List Entry}
    (h : Rep s ptrs L) : ∃ r c R, ptrs = s.mHead :: r ∧ L = c :: R := by
  have hlen := rep_length h
  obtain ⟨-, hhead, -, -⟩ := h
  cases ptrs with
  | nil => simp at hhead
  | cons a r =>
    cases L with
    | nil => simp at hlen
    | cons c R =>
      have : a = s.mHead := by simpa using hhead
      exact ⟨r, c, R, by rw [this], rfl⟩

/-- On every state that satisfies the invariant `put` returns, and keeps it. -/
theorem inv_put (s : ResourceInMemoryCache) (id : ResourceId) (size : Nat)
    (data : Nat → Byte) (hinv : Inv s) :
    ∃ s2, ResourceInMemoryCache.put s id size data = Except.ok s2 ∧ Inv s2 := by
  by_cases hsz : size ≤ s.mBufferSize
  · obtain ⟨ptrs, L, o, hrep, htot, hlay⟩ := hinv
    obtain ⟨r, c, R, rfl, rfl⟩ := rep_cons hrep
    obtain ⟨s2, ptrs2, hput, hrep2, -, -, hsz2⟩ :=
      put_sim s r c R id size data hrep hsz (by rw [htot]; exact hsz)
    obtain ⟨hl2, ht2⟩ := absPut_inv s.mBufferSize id size c R s.mCache o hlay htot hsz
    exact ⟨s2, hput, ptrs2, _, o + size, hrep2, by rw [hsz2]; exact ht2,
      by rw [hsz2]; exact hl2⟩
  · refine ⟨s, ?_, hinv⟩
    simp [ResourceInMemoryCache.put, not_le.mp hsz]

theorem inv_wellFormed {s : ResourceInMemoryCache} (hinv : Inv s) :
    ∃ ptrs, WellFormed s ptrs := by
  obtain ⟨ptrs, L, o, hrep, -, -⟩ := hinv
  exact ⟨ptrs, hrep.1, hrep.2.1, hrep.2.2.1⟩

/-- After `clear` the state is the single free block spanning the buffer. -/
theorem rep_clear (s s2 : ResourceInMemoryCache) (ptrs : List Ptr) (hwf : WellFormed s ptrs)
    (hb : s2.blocks s.mHead = some (wholeBlock s.mHead s.mBufferSize))
    (hh : s2.mHead = s.mHead) (hbrk : s2.brk = s.brk) :
    Rep s2 [s2.mHead] [{ offset := 0, size := s.mBufferSize, id := "" }] := by
  rw [hh]
  refine ⟨?_, by simp [hh], ?_, ?_⟩
  · rw [isRing_single]
    simp [Adj, nextOf, prevOf, hb, wholeBlock]
  · intro p hp
    simp only [List.mem_singleton] at hp
    rw [hp, hbrk]
    obtain ⟨-, hhead, hbnd⟩ := hwf
    exact hbnd _ (List.mem_of_mem_head? hhead)
  · simp [hb, wholeBlock, payload]

theorem inv_clear (s : ResourceInMemoryCache) (ptrs : List Ptr) (hwf : WellFormed s ptrs) :
    ∃ s2, ResourceInMemoryCache.clear s = Except.ok s2 ∧ Inv s2 := by
  obtain ⟨s2, hcl, hb, hh, -, hbrk, -, hsz⟩ := clear_spec s ptrs hwf
  refine ⟨s2, hcl, [s2.mHead], _, 0, rep_clear s s2 ptrs hwf hb hh hbrk, ?_, ?_⟩
  · simp [totalSize, hsz]
  · simp

theorem inv_resize (s : ResourceInMemoryCache) (n : Nat) (ptrs : List Ptr)
    (hwf : WellFormed s ptrs) :
    ∃ s2, ResourceInMemoryCache.resize s n = Except.ok s2 ∧ Inv s2 :=
  inv_clear { s with mBufferSize := n } ptrs hwf

theorem inv_create (buffer : Nat → Byte) : Inv (ResourceInMemoryCache.create buffer) := by
  refine ⟨[0], [{ offset := 0, size := 0, id := "" }], 0, ⟨?_, rfl, ?_, ?_⟩, rfl, ?_⟩
  · rw [isRing_single]
    simp [Adj, nextOf, prevOf, ResourceInMemoryCache.create, store, Block.mk3]
  · simp [ResourceInMemoryCache.create]
  · simp [ResourceInMemoryCache.create, store, Block.mk3, payload]
  · simp

/-! ## The partition of the buffer -/

/-- Entries laid out one after the other within one turn of the buffer occupy
pairwise disjoint spans. -/
theorem laidOut_disjoint (B o0 : Nat) (L : List Entry) :
    ∀ (k : Nat), laidOut B (o0 + k) L → k + totalSize L ≤ B →
      (∀ e ∈ L, ∀ x ∈ spanOf B e, ∃ u, k ≤ u ∧ u < k + totalSize L ∧ x = (o0 + u) % B) ∧
      L.Pairwise (fun a b => (spanOf B a).Disjoint (spanOf B b)) := by
  induction L with
  | nil => intro k _ _; simp
  | cons e L ih =>
    intro k hl hk
    obtain ⟨h1, h2⟩ := hl
    have hts : totalSize (e :: L) = e.size + totalSize L := by simp [totalSize]
    rw [Nat.add_assoc] at h2
    obtain ⟨ih1, ih2⟩ := ih (k + e.size) h2 (by omega)
    have he : ∀ x ∈ spanOf B e, ∃ u, k ≤ u ∧ u < k + e.size ∧ x = (o0 + u) % B := by
      intro x hx
      simp only [spanOf, List.mem_map, List.mem_range] at hx
      obtain ⟨i, hi, rfl⟩ := hx
      refine ⟨k + i, by omega, by omega, ?_⟩
      rw [Nat.add_mod, h1, ← Nat.add_mod, Nat.add_assoc]
    refine ⟨?_, ?_⟩
    · intro e2 he2 x hx
      rcases List.mem_cons.mp he2 with rfl | hmem
      · obtain ⟨u, hu1, hu2, hu3⟩ := he x hx
        exact ⟨u, hu1, by omega, hu3⟩
      · obtain ⟨u, hu1, hu2, hu3⟩ := ih1 e2 hmem x hx
        exact ⟨u, by omega, by omega, hu3⟩
    · rw [List.pairwise_cons]
      refine ⟨?_, ih2⟩
      intro e2 he2 x hx1 hx2
      obtain ⟨u, hu1, hu2, hu3⟩ := he x hx1
      obtain ⟨v, hv1, hv2, hv3⟩ := ih1 e2 he2 x hx2
      have : u = v := add_mod_inj (by omega) (by omega) (hu3.symm.trans hv3)
      omega

theorem partition_of_inv {s : ResourceInMemoryCache} (hinv : Inv s) : Partition s := by
  obtain ⟨ptrs, L, o, hrep, htot, hlay⟩ := hinv
  obtain ⟨hring, hhead, -, hent⟩ := hrep
  refine ⟨ptrs, L, hring, List.mem_of_mem_head? hhead, hent, ?_, htot⟩
  exact (laidOut_disjoint s.mBufferSize o L 0 hlay (by omega)).2

/-! ## Sequences of calls -/

/-- Every call returns on a state that satisfies the invariant, and keeps it. -/
theorem inv_apply (s : ResourceInMemoryCache) (op : Op) (hinv : Inv s) :
    ∃ s2, Op.apply s op = Except.ok s2 ∧ Inv s2 := by
  cases op with
  | put id size data => exact inv_put s id size data hinv
  | clear =>
    obtain ⟨ptrs, hwf⟩ := inv_wellFormed hinv
    exact inv_clear s ptrs hwf
  | resize n =>
    obtain ⟨ptrs, hwf⟩ := inv_wellFormed hinv
    exact inv_resize s n ptrs hwf

theorem inv_run (ops : List Op) :
    ∀ (s : ResourceInMemoryCache), Inv s → ∃ s2, run s ops = Except.ok s2 ∧ Inv s2 := by
  induction ops with
  | nil => intro s h; exact ⟨s, rfl, h⟩
  | cons op ops ih =>
    intro s h
    obtain ⟨s1, h1, hi1⟩ := inv_apply s op h
    obtain ⟨s2, h2, hi2⟩ := ih s1 hi1
    exact ⟨s2, by simp [run, h1, h2], hi2⟩

/-! ## The list operations keep the ring well formed -/

/-- C4: in a well-formed ring (`IsRing`: following `next` from a block visits every
block exactly once and returns to the start, `prev` being the inverse of `next`),
`linkAfter(x)` and `linkBefore(x)` of a self-linked block outside the ring return and
yield a well-formed ring that has exactly the new block more (right after, resp. right
before `x`), and `unlink` of a block `x` of a ring of at least two blocks returns and
yields a well-formed ring that has exactly `x` less, leaving `x` self-linked. -/
theorem ring_ops_preserve_wellformed (m : Mem) (pre post : List Ptr) (x : Ptr)
    (hr : IsRing m (pre ++ x :: post)) :
    (∀ this, this ∉ pre ++ x :: post → SelfLinked m this →
      (∃ m2, Block.linkAfter m this x = Except.ok m2 ∧
        IsRing m2 (pre ++ x :: this :: post)) ∧
      (∃ m2, Block.linkBefore m this x = Except.ok m2 ∧
        IsRing m2 (pre ++ this :: x :: post))) ∧
    (pre ++ post ≠ [] →
      ∃ m2, Block.unlink m x = Except.ok m2 ∧ IsRing m2 (pre ++ post) ∧
        SelfLinked m2 x) := by
  refine ⟨fun this hnot hs => ⟨?_, ?_⟩, fun h2 => ?_⟩
  · obtain ⟨m2, h1, h2, -⟩ := linkAfter_ring hr hnot hs
    exact ⟨m2, h1, h2⟩
  · obtain ⟨m2, h1, h2, -⟩ := linkBefore_ring hr hnot hs
    exact ⟨m2, h1, h2⟩
  · obtain ⟨m2, h1, h3, h4, -⟩ := unlink_ring hr h2
    exact ⟨m2, h1, h3, h4⟩

/-- C4 at the two-block ring of `demoMem`: the ring is well formed, block 2 can be
linked after and before block 1, and block 1 can be unlinked. -/
theorem ring_ops_preserve_wellformed_witness :
    IsRing demoMem ([0] ++ 1 :: []) ∧
    ((∃ m2, Block.linkAfter demoMem 2 1 = Except.ok m2 ∧ IsRing m2 ([0] ++ 1 :: 2 :: [])) ∧
      (∃ m2, Block.linkBefore demoMem 2 1 = Except.ok m2 ∧
        IsRing m2 ([0] ++ 2 :: 1 :: []))) ∧
    (∃ m2, Block.unlink demoMem 1 = Except.ok m2 ∧ IsRing m2 ([0] ++ []) ∧
      SelfLinked m2 1) :=
  have hr : IsRing demoMem ([0] ++ 1 :: []) := by decide
  ⟨hr, (ring_ops_preserve_wellformed demoMem [0] [] 1 hr).1 2 (by decide) (by decide),
    (ring_ops_preserve_wellformed demoMem [0] [] 1 hr).2 (by decide)⟩

/-! ## `free` -/

/-- C5: `free(b)` on a live block `b` returns; afterwards `b` is free (its id is
empty), the identifier index has no entry for the former id of `b`, the index entries
of all other ids are unchanged, and the offset, size, next and prev of `b` are
unchanged. -/
theorem free_evicts_entry (s : ResourceInMemoryCache) (b : Ptr) (blk : Block)
    (hb : s.blocks b = some blk) :
    ∃ s2 blk2, ResourceInMemoryCache.free s b = Except.ok s2 ∧
      s2.blocks b = some blk2 ∧ blk2.isFree = true ∧ blk2.id = "" ∧
      s2.mCache blk.id = none ∧ (∀ k, k ≠ blk.id → s2.mCache k = s.mCache k) ∧
      blk2.offset = blk.offset ∧ blk2.size = blk.size ∧ blk2.next = blk.next ∧
      blk2.prev = blk.prev := by
  refine ⟨_, { blk with id := "" }, free_spec s b blk hb, by simp, by simp [Block.isFree],
    rfl, by simp [ResourceInMemoryCache.erase], ?_, rfl, rfl, rfl, rfl⟩
  intro k hk
  simp [ResourceInMemoryCache.erase, hk]

/-- C5 at block 0 of `demoCache`. -/
theorem free_evicts_entry_witness :
    demoCache.blocks 0 = some { offset := 0, size := 4, id := "a", next := 1, prev := 1 } ∧
    ∃ s2 blk2, ResourceInMemoryCache.free demoCache 0 = Except.ok s2 ∧
      s2.blocks 0 = some blk2 ∧ blk2.isFree = true ∧ blk2.id = "" ∧
      s2.mCache "a" = none ∧ (∀ k, k ≠ "a" → s2.mCache k = demoCache.mCache k) ∧
      blk2.offset = 0 ∧ blk2.size = 4 ∧ blk2.next = 1 ∧ blk2.prev = 1 :=
  ⟨rfl, free_evicts_entry demoCache 0 _ rfl⟩

/-! ## `get` -/

/-- The first loop of `foreach_block` appends the blocks up to `first`, in `next`
order, to the vector. -/
theorem collectLoop_spec (m : Mem) (first : Ptr) :
    ∀ (todo : List Ptr) (block : Ptr) (acc : List Ptr) (fuel : Nat),
      (todo ++ [first]).Chain' (Adj m) → (todo ++ [first]).head? = some block →
      first ∉ todo → todo.length < fuel →
      ResourceInMemoryCache.collectLoop m first fuel block acc = Except.ok (acc ++ todo) := by
  intro todo
  induction todo with
  | nil =>
    intro block acc fuel _ hhead _ hfuel
    obtain ⟨k, rfl⟩ : ∃ k, fuel = k + 1 := ⟨fuel - 1, by omega⟩
    have : block = first := by simpa using hhead.symm
    simp [ResourceInMemoryCache.collectLoop, this]
  | cons x r ih =>
    intro block acc fuel hch hhead hnot hfuel
    obtain ⟨k, rfl⟩ : ∃ k, fuel = k + 1 := ⟨fuel - 1, by omega⟩
    have hbx : block = x := by simpa using hhead.symm
    subst hbx
    have hne : block ≠ first := by
      rintro rfl
      exact hnot (by simp)
    rw [List.cons_append, List.chain'_cons'] at hch
    obtain ⟨hnext, hch2⟩ := hch
    obtain ⟨y, hy⟩ : ∃ y, (r ++ [first]).head? = some y := by
      cases r <;> simp
    obtain ⟨xb, hxb, hxn⟩ := nextOf_eq_some (hnext y hy).1
    simp only [ResourceInMemoryCache.collectLoop, if_neg hne, deref, hxb, ok_bind, hxn]
    rw [ih y (acc ++ [block]) k hch2 hy (fun h => hnot (List.mem_cons_of_mem _ h))
      (by simpa using hfuel)]
    simp

/-- The vector of `foreach_block` on a ring is the listing of the ring from `first`. -/
theorem collect_ring {m : Mem} {first : Ptr} {t : List Ptr} (fuel : Nat)
    (hr : IsRing m (first :: t)) (hfuel : t.length < fuel) :
    ∃ f, m first = some f ∧
      ResourceInMemoryCache.collectLoop m first fuel f.next [first] =
        Except.ok (first :: t) := by
  obtain ⟨f, hf, hfn⟩ := isRing_head_block hr
  refine ⟨f, hf, ?_⟩
  obtain ⟨-, hnd, hch, hcl⟩ := hr
  have hch2 : (t ++ [first]).Chain' (Adj m) := by
    rw [List.chain'_append]
    refine ⟨hch.tail, List.chain'_singleton _, ?_⟩
    intro z hz a ha
    have ha' : a = first := by simpa using ha.symm
    subst ha'
    cases t with
    | nil => simp at hz
    | cons n r => exact hcl z (by simpa using hz) a (by simp)
  have := collectLoop_spec m first t f.next [first] fuel hch2 hfn
    (List.nodup_cons.mp hnd).1 hfuel
  simpa using this

/-- An id without an index entry misses. -/
theorem get_miss {s : ResourceInMemoryCache} {id : ResourceId} (size : Nat)
    (h : s.mCache id = none) : ResourceInMemoryCache.get s id size = Except.ok none := by
  simp only [ResourceInMemoryCache.get, h]

/-- The size contract of `get` holds exactly when a block of the ring carries the id,
the offset and the size. -/
theorem recorded_iff (m : Mem) (ring : List Ptr) (id : ResourceId) (offset size : Nat) :
    ResourceInMemoryCache.recorded m ring id offset size = true ↔
      ∃ p ∈ ring, (m p).map payload = some { offset := offset, size := size, id := id } := by
  simp only [ResourceInMemoryCache.recorded, List.any_eq_true]
  refine exists_congr (fun p => and_congr_right (fun _ => ?_))
  cases hp : m p with
  | none => simp
  | some b =>
    rcases b with ⟨bo, bs, bi, bn, bp⟩
    simp only [decide_eq_true_eq, Option.map_some', payload, Option.some.injEq, Entry.mk.injEq]
    tauto

/-- On a well-formed state, `get` of an id with an index entry comes down to the size
contract on the blocks of the ring. -/
theorem get_of_index {s : ResourceInMemoryCache} {ptrs : List Ptr} {id : ResourceId}
    {offset : Nat} (size : Nat) (hwf : WellFormed s ptrs) (h : s.mCache id = some offset) :
    ResourceInMemoryCache.get s id size =
      if ResourceInMemoryCache.recorded s.blocks ptrs id offset size = true then
        Except.ok (some (ResourceInMemoryCache.copyOut s.mBuffer s.mBufferSize offset size))
      else Except.error Fault.assertion := by
  obtain ⟨hring, hhead, hbnd⟩ := hwf
  cases ptrs with
  | nil => simp at hhead
  | cons a t =>
    have ha : a = s.mHead := by simpa using hhead
    subst ha
    have hlen : t.length < s.brk := by
      have := length_le_of_nodup_lt hring.2.1 hbnd
      simpa [Nat.lt_iff_add_one_le] using this
    obtain ⟨f, hf, hcol⟩ := collect_ring s.brk hring hlen
    simp only [ResourceInMemoryCache.get, h, deref, hf, ok_bind, hcol, gapidAssert]
    split_ifs <;> rfl

/-- A block of the ring that carries the id, the offset of its index entry and the
size makes `get` a hit. -/
theorem get_hit {s : ResourceInMemoryCache} {ptrs : List Ptr} {id : ResourceId}
    {offset size : Nat} (hwf : WellFormed s ptrs) (h : s.mCache id = some offset)
    (hrec : ∃ p ∈ ptrs,
      (s.blocks p).map payload = some { offset := offset, size := size, id := id }) :
    ResourceInMemoryCache.get s id size =
      Except.ok (some (ResourceInMemoryCache.copyOut s.mBuffer s.mBufferSize offset size)) := by
  rw [get_of_index size hwf h, if_pos ((recorded_iff _ _ _ _ _).mpr hrec)]

/-- The blocks of a represented ring carry the entries of the list. -/
theorem rep_mem {s : ResourceInMemoryCache} {ptrs : List Ptr} {L : List Entry} {e : Entry}
    (h : Rep s ptrs L) (he : e ∈ L) : ∃ p ∈ ptrs, (s.blocks p).map payload = some e := by
  have hm : some e ∈ entriesOf s.blocks ptrs := by
    rw [h.2.2.2]
    exact List.mem_map_of_mem _ he
  simp only [entriesOf, List.mem_map] at hm
  exact hm

/-- The entry of the new resource is among the entries after `put`. -/
theorem absPut_new_mem (B : Nat) (id : ResourceId) (size : Nat) (c : Entry) (R : List Entry)
    (idx : ResourceId → Option Nat) :
    ({ offset := c.offset, size := size, id := id } : Entry) ∈ (absPut B id size (c :: R) idx).1 := by
  simp only [absPut]
  split <;> simp [absWalk_offset]

/-! ## Round trip -/

/-- C1 (on `put` and `get` as modelled from the spec): on every cache state that
satisfies the invariant, for every id, every `size ≤ mBufferSize` and every data,
`put(id, size, data)` returns and an immediately following `get(id, size)` hits and
returns the `size` bytes of `data`. -/
theorem put_get_roundtrip (s : ResourceInMemoryCache) (id : ResourceId) (size : Nat)
    (data : Nat → Byte) (hinv : Inv s) (hsz : size ≤ s.mBufferSize) :
    ∃ s2, ResourceInMemoryCache.put s id size data = Except.ok s2 ∧
      ResourceInMemoryCache.get s2 id size =
        Except.ok (some ((List.range size).map data)) := by
  obtain ⟨ptrs, L, o, hrep, htot, -⟩ := hinv
  obtain ⟨r, c, R, rfl, rfl⟩ := rep_cons hrep
  obtain ⟨s2, ptrs2, hput, hrep2, hc2, hb2, hsz2⟩ :=
    put_sim s r c R id size data hrep hsz (by rw [htot]; exact hsz)
  refine ⟨s2, hput, ?_⟩
  have hidx : s2.mCache id = some c.offset := by
    rw [hc2]
    exact absPut_index _ _ _ _ _ _
  rw [get_hit ⟨hrep2.1, hrep2.2.1, hrep2.2.2.1⟩ hidx
    (rep_mem hrep2 (absPut_new_mem _ _ _ _ _ _)), hb2, hsz2, copyOut_copyIn _ _ _ _ _ hsz]

theorem inv_demoCache : Inv demoCache :=
  ⟨[1, 0], [{ offset := 4, size := 6, id := "" }, { offset := 0, size := 4, id := "a" }], 4,
    by decide, rfl, by decide⟩

/-- C1 at `demoCache` (buffer size 10): a resource "b" of 6 bytes. -/
theorem put_get_roundtrip_witness :
    Inv demoCache ∧ 6 ≤ demoCache.mBufferSize ∧
    ∃ s2, ResourceInMemoryCache.put demoCache "b" 6 (fun i => 10 + i) = Except.ok s2 ∧
      ResourceInMemoryCache.get s2 "b" 6 =
        Except.ok (some ((List.range 6).map (fun i => 10 + i))) :=
  ⟨inv_demoCache, by decide,
    put_get_roundtrip demoCache "b" 6 (fun i => 10 + i) inv_demoCache (by decide)⟩

/-! ## The partition invariant -/

/-- C3 (on `put`, `clear` and `resize` as modelled from the spec): for every sequence
of `put`, `clear` and `resize` calls on a newly created cache, after each call (that
is, after every prefix of the sequence) the calls have returned and the blocks of the
ring have pairwise disjoint spans modulo the buffer size and sizes that sum to the
current buffer size. -/
theorem partition_after_calls (buffer : Nat → Byte) (ops : List Op) (k : Nat) :
    ∃ s, run (ResourceInMemoryCache.create buffer) (ops.take k) = Except.ok s ∧
      Partition s := by
  obtain ⟨s, hs, hinv⟩ := inv_run (ops.take k) _ (inv_create buffer)
  exact ⟨s, hs, partition_of_inv hinv⟩

/-! ## Capacity rejection -/

theorem store_self {m : Mem} {p : Ptr} {b : Block} (h : m p = some b) : store m p b = m := by
  funext q
  simp only [store]
  split_ifs with hq
  · rw [hq, h]
  · rfl

/-- On a state that `clear` has produced, `clear` changes nothing. -/
theorem clear_fixed (s : ResourceInMemoryCache)
    (hb : s.blocks s.mHead = some (wholeBlock s.mHead s.mBufferSize))
    (hc : s.mCache = fun _ => none) (hbrk : 0 < s.brk) :
    ResourceInMemoryCache.clear s = Except.ok s := by
  rw [clear_single s _ hb rfl hbrk]
  have : store s.blocks s.mHead
      { wholeBlock s.mHead s.mBufferSize with offset := 0, size := s.mBufferSize, id := "" } =
      s.blocks := store_self hb
  rw [this, ← hc]

/-- C8 (on `clear` and `get` as modelled from the spec): on every well-formed cache
state `clear()` returns; afterwards every id misses, the identifier index is empty,
the block ring is a single free block of offset 0 that spans the buffer size, and
`clear()` followed by `clear()` yields the same state as one `clear()`. -/
theorem clear_resets (s : ResourceInMemoryCache) (ptrs : List Ptr)
    (hwf : WellFormed s ptrs) :
    ∃ s2, ResourceInMemoryCache.clear s = Except.ok s2 ∧
      (∀ id size, ResourceInMemoryCache.get s2 id size = Except.ok none) ∧
      (∀ id, s2.mCache id = none) ∧ IsRing s2.blocks [s2.mHead] ∧
      (∃ b, s2.blocks s2.mHead = some b ∧ b.isFree = true ∧ b.offset = 0 ∧
        b.size = s2.mBufferSize) ∧
      s2.mBufferSize = s.mBufferSize ∧
      (ResourceInMemoryCache.clear s >>= ResourceInMemoryCache.clear) =
        ResourceInMemoryCache.clear s := by
  obtain ⟨s2, hcl, hb, hh, hc, hbrk, -, hsz⟩ := clear_spec s ptrs hwf
  have hb2 : s2.blocks s2.mHead = some (wholeBlock s2.mHead s2.mBufferSize) := by
    rw [hh, hsz]; exact hb
  have hpos : 0 < s2.brk := by
    rw [hbrk]
    exact Nat.lt_of_le_of_lt (Nat.zero_le _) (hwf.2.2 _ (List.mem_of_mem_head? hwf.2.1))
  refine ⟨s2, hcl, ?_, ?_, ?_, ⟨_, hb2, rfl, rfl, rfl⟩, hsz, ?_⟩
  · intro id size
    exact get_miss size (by rw [hc])
  · intro id
    rw [hc]
  · exact (rep_clear s s2 ptrs hwf hb hh hbrk).1
  · rw [hcl, ok_bind]
    exact clear_fixed s2 hb2 hc hpos

theorem wellFormed_demoCache : WellFormed demoCache [1, 0] := by decide

/-- C8 at `demoCache`, which holds the resource "a". -/
theorem clear_resets_witness :
    WellFormed demoCache [1, 0] ∧
    ∃ s2, ResourceInMemoryCache.clear demoCache = Except.ok s2 ∧
      (∀ id size, ResourceInMemoryCache.get s2 id size = Except.ok none) ∧
      (∀ id, s2.mCache id = none) ∧ IsRing s2.blocks [s2.mHead] ∧
      (∃ b, s2.blocks s2.mHead = some b ∧ b.isFree = true ∧ b.offset = 0 ∧
        b.size = s2.mBufferSize) ∧
      s2.mBufferSize = demoCache.mBufferSize ∧
      (ResourceInMemoryCache.clear demoCache >>= ResourceInMemoryCache.clear) =
        ResourceInMemoryCache.clear demoCache :=
  ⟨wellFormed_demoCache, clear_resets demoCache [1, 0] wellFormed_demoCache⟩

/-- C9 (on `resize` and `get` as modelled from the spec): on every well-formed cache
state `resize(n)` returns; afterwards the buffer size is `n`, every id misses, the
identifier index is empty and the block ring is a single free block of offset 0 and
size `n`. -/
theorem resize_clears (s : ResourceInMemoryCache) (n : Nat) (ptrs : List Ptr)
    (hwf : WellFormed s ptrs) :
    ∃ s2, ResourceInMemoryCache.resize s n = Except.ok s2 ∧ s2.mBufferSize = n ∧
      (∀ id size, ResourceInMemoryCache.get s2 id size = Except.ok none) ∧
      (∀ id, s2.mCache id = none) ∧ IsRing s2.blocks [s2.mHead] ∧
      (∃ b, s2.blocks s2.mHead = some b ∧ b.isFree = true ∧ b.offset = 0 ∧ b.size = n) := by
  have hwf2 : WellFormed { s with mBufferSize := n } ptrs := hwf
  obtain ⟨s2, hcl, hb, hh, hc, hbrk, -, hsz⟩ := clear_spec _ ptrs hwf2
  have hb2 : s2.blocks s2.mHead = some (wholeBlock s2.mHead n) := by
    rw [hh]; exact hb
  refine ⟨s2, hcl, hsz, ?_, ?_, ?_, ⟨_, hb2, rfl, rfl, rfl⟩⟩
  · intro id size
    exact get_miss size (by rw [hc])
  · intro id
    rw [hc]
  · exact (rep_clear _ s2 ptrs hwf2 hb hh hbrk).1

/-- C9 at the state after the a/b/c scenario: after `resize(200)` the ids "a", "b" and
"c" (and all others) miss. -/
theorem resize_clears_witness :
    WellFormed abcCache [0, 2, 3] ∧
    ∃ s2, ResourceInMemoryCache.resize abcCache 200 = Except.ok s2 ∧ s2.mBufferSize = 200 ∧
      (∀ id size, ResourceInMemoryCache.get s2 id size = Except.ok none) ∧
      (∀ id, s2.mCache id = none) ∧ IsRing s2.blocks [s2.mHead] ∧
      (∃ b, s2.blocks s2.mHead = some b ∧ b.isFree = true ∧ b.offset = 0 ∧ b.size = 200) :=
  have h : WellFormed abcCache [0, 2, 3] := by decide
  ⟨h, resize_clears abcCache 200 [0, 2, 3] h⟩

/-! ## The wrap-around scenario -/

/-- C7 (on `put`, `get` and `clear` as modelled from the spec): on a cleared cache
with buffer size 100, `put("a", 40, A)`, `put("b", 40, B)`, `put("c", 40, C)` return
in that order; afterwards `get("a")` misses, `get("b", 40)` and `get("c", 40)` hit and
return the bytes of `B` and of `C`, and the ring, listed from the cursor, is a free
block of 20 bytes at offset 20, "b" at offset 40 and "c" at offset 80 with 40 bytes
(it wraps past the end of the buffer): only "a" was evicted. -/
theorem abc_scenario (s : ResourceInMemoryCache) (ptrs : List Ptr) (A B C : Nat → Byte)
    (hwf : WellFormed s ptrs) (hB : s.mBufferSize = 100) :
    ∃ s0 s1 s2 s3 ptrs3, ResourceInMemoryCache.clear s = Except.ok s0 ∧
      ResourceInMemoryCache.put s0 "a" 40 A = Except.ok s1 ∧
      ResourceInMemoryCache.put s1 "b" 40 B = Except.ok s2 ∧
      ResourceInMemoryCache.put s2 "c" 40 C = Except.ok s3 ∧
      (∀ n, ResourceInMemoryCache.get s3 "a" n = Except.ok none) ∧
      ResourceInMemoryCache.get s3 "b" 40 = Except.ok (some ((List.range 40).map B)) ∧
      ResourceInMemoryCache.get s3 "c" 40 = Except.ok (some ((List.range 40).map C)) ∧
      Rep s3 ptrs3 [{ offset := 20, size := 20, id := "" },
        { offset := 40, size := 40, id := "b" }, { offset := 80, size := 40, id := "c" }] := by
  obtain ⟨s0, hcl, hb0, hh0, hc0, hbrk0, -, hsz0⟩ := clear_spec s ptrs hwf
  have hrep0 := rep_clear s s0 ptrs hwf hb0 hh0 hbrk0
  rw [hB] at hrep0 hsz0
  -- put "a"
  obtain ⟨s1, ptrs1, hput1, hrep1, hc1, hb1, hsz1⟩ :=
    put_sim s0 [] _ [] "a" 40 A hrep0 (by rw [hsz0]; decide) (by decide)
  rw [hsz0] at hrep1 hc1 hb1 hsz1
  have hL1 : (absPut 100 "a" 40 [{ offset := 0, size := 100, id := "" }] s0.mCache).1 =
      [{ offset := 40, size := 60, id := "" }, { offset := 0, size := 40, id := "a" }] := rfl
  rw [hL1] at hrep1
  obtain ⟨r1, c1, R1, rfl, hcR1⟩ := rep_cons hrep1
  simp only [List.cons.injEq] at hcR1
  obtain ⟨rfl, rfl⟩ := hcR1
  -- put "b"
  obtain ⟨s2, ptrs2, hput2, hrep2, hc2, hb2, hsz2⟩ :=
    put_sim s1 r1 _ _ "b" 40 B hrep1 (by rw [hsz1]; decide) (by decide)
  rw [hsz1] at hrep2 hc2 hb2 hsz2
  have hL2 : (absPut 100 "b" 40 [{ offset := 40, size := 60, id := "" },
      { offset := 0, size := 40, id := "a" }] s1.mCache).1 =
      [{ offset := 80, size := 20, id := "" }, { offset := 0, size := 40, id := "a" },
        { offset := 40, size := 40, id := "b" }] := rfl
  rw [hL2] at hrep2
  obtain ⟨r2, c2, R2, rfl, hcR2⟩ := rep_cons hrep2
  simp only [List.cons.injEq] at hcR2
  obtain ⟨rfl, rfl⟩ := hcR2
  -- put "c"
  obtain ⟨s3, ptrs3, hput3, hrep3, hc3, hb3, hsz3⟩ :=
    put_sim s2 r2 _ _ "c" 40 C hrep2 (by rw [hsz2]; decide) (by decide)
  rw [hsz2] at hrep3 hc3 hb3 hsz3
  have hL3 : (absPut 100 "c" 40 [{ offset := 80, size := 20, id := "" },
      { offset := 0, size := 40, id := "a" }, { offset := 40, size := 40, id := "b" }]
      s2.mCache).1 =
      [{ offset := 20, size := 20, id := "" }, { offset := 40, size := 40, id := "b" },
        { offset := 80, size := 40, id := "c" }] := by
    simp [absPut, absWalk]
  rw [hL3] at hrep3
  have hia : s3.mCache "a" = none := by
    rw [hc3]
    simp [absPut, absWalk, ResourceInMemoryCache.insert, ResourceInMemoryCache.erase]
  have hib : s3.mCache "b" = some 40 := by
    rw [hc3, hc2]
    simp [absPut, absWalk, ResourceInMemoryCache.insert, ResourceInMemoryCache.erase]
  have hic : s3.mCache "c" = some 80 := by
    rw [hc3]
    simp [absPut, absWalk, ResourceInMemoryCache.insert, ResourceInMemoryCache.erase]
  refine ⟨s0, s1, s2, s3, ptrs3, hcl, hput1, hput2, hput3, ?_, ?_, ?_, hrep3⟩
  · intro n
    exact get_miss n hia
  · rw [get_hit ⟨hrep3.1, hrep3.2.1, hrep3.2.2.1⟩ hib (rep_mem hrep3 (by simp)), hb3, hsz3]
    simp only [ResourceInMemoryCache.copyOut]
    congr 2
    refine List.map_congr_left (fun i hi => ?_)
    have hi' : i < 40 := List.mem_range.mp hi
    rw [copyIn_other _ _ _ _ _ _ (fun j hj => by omega), hb2]
    exact copyIn_read _ 100 40 B 40 i (by decide) hi'
  · rw [get_hit ⟨hrep3.1, hrep3.2.1, hrep3.2.2.1⟩ hic (rep_mem hrep3 (by simp)), hb3, hsz3,
      copyOut_copyIn _ _ _ _ _ (by decide)]

/-- C7 on the cache obtained by clearing `seedCache`. -/
theorem abc_scenario_witness :
    WellFormed seedCache [0] ∧ seedCache.mBufferSize = 100 ∧
    ∃ s0 s1 s2 s3 ptrs3, ResourceInMemoryCache.clear seedCache = Except.ok s0 ∧
      ResourceInMemoryCache.put s0 "a" 40 (fun i => 100 + i) = Except.ok s1 ∧
      ResourceInMemoryCache.put s1 "b" 40 (fun i => 200 + i) = Except.ok s2 ∧
      ResourceInMemoryCache.put s2 "c" 40 (fun i => 300 + i) = Except.ok s3 ∧
      (∀ n, ResourceInMemoryCache.get s3 "a" n = Except.ok none) ∧
      ResourceInMemoryCache.get s3 "b" 40 =
        Except.ok (some ((List.range 40).map (fun i => 200 + i))) ∧
      ResourceInMemoryCache.get s3 "c" 40 =
        Except.ok (some ((List.range 40).map (fun i => 300 + i))) ∧
      Rep s3 ptrs3 [{ offset := 20, size := 20, id := "" },
        { offset := 40, size := 40, id := "b" }, { offset := 80, size := 40, id := "c" }] :=
  have h : WellFormed seedCache [0] := by decide
  ⟨h, rfl, abc_scenario seedCache [0] _ _ _ h rfl⟩

/-! ## `last` -/

/-- The loop of `last` walks up a strictly increasing stretch of the ring to its end. -/
theorem lastLoop_walk (m : Mem) (f : Ptr) (fb : Block) (hf : m f = some fb) :
    ∀ (post : List Ptr) (h : Ptr) (fuel : Nat), (h :: post).Chain' (Adj m) →
      (∀ z ∈ (h :: post).getLast?, nextOf m z = some f ∧ fb.offset ≤ offsetAt m z) →
      ((h :: post).map (offsetAt m)).Pairwise (· < ·) → post.length < fuel →
      ∃ z, (h :: post).getLast? = some z ∧
        ResourceInMemoryCache.lastLoop m fuel h = Except.ok z := by
  intro post
  induction post with
  | nil =>
    intro h fuel _ hcl _ hfuel
    obtain ⟨k, rfl⟩ : ∃ k, fuel = k + 1 := ⟨fuel - 1, by omega⟩
    obtain ⟨hn, hle⟩ := hcl h (by simp)
    obtain ⟨hb, hhb, hbn⟩ := nextOf_eq_some hn
    refine ⟨h, by simp, ?_⟩
    have hoff : offsetAt m h = hb.offset := by simp [offsetAt, hhb]
    rw [hoff] at hle
    simp [ResourceInMemoryCache.lastLoop, deref, hhb, hbn, hf, Nat.not_lt.mpr hle]
  | cons y r ih =>
    intro h fuel hch hcl hord hfuel
    obtain ⟨k, rfl⟩ : ∃ k, fuel = k + 1 := ⟨fuel - 1, by omega⟩
    rw [List.chain'_cons] at hch
    obtain ⟨hadj, hch2⟩ := hch
    obtain ⟨hb, hhb, hbn⟩ := nextOf_eq_some hadj.1
    obtain ⟨yb, hyb, -⟩ := prevOf_eq_some hadj.2
    have hlt : hb.offset < yb.offset := by
      have := (List.pairwise_cons.mp hord).1 (offsetAt m y) (by simp)
      simpa [offsetAt, hhb, hyb] using this
    obtain ⟨z, hz, hl⟩ := ih y k hch2 (by simpa using hcl) (List.pairwise_cons.mp hord).2
      (by simpa using hfuel)
    refine ⟨z, by simpa using hz, ?_⟩
    simp only [ResourceInMemoryCache.lastLoop, deref, hhb, ok_bind, hbn, hyb, gt_iff_lt,
      if_pos hlt]
    exact hl

/-- C10, the code at the failing input: `last()` does not return the block with the
highest offset. In `tieCache` the ring is well formed, its offsets 0, 5, 5, 10 are
non-decreasing along `next` from block 0 with the single wrap edge from block 3 to
block 0, and the cursor is at block 1 of the ring; the loop test
`block->next->offset > block->offset` fails at once, since block 2 has the offset of
block 1, and `last()` returns block 1 (offset 5), although block 3 has offset 10. The
calls `tieOps` on a newly created cache lead to this ring at the addresses
`[5, 2, 3, 4]`, where `last()` returns block 2 (offset 5) and block 4 has offset 10. -/
theorem last_misses_highest_at_tie :
    (IsRing tieCache.blocks [0, 1, 2, 3] ∧
      ([0, 1, 2, 3].map (offsetAt tieCache.blocks)).Pairwise (· ≤ ·) ∧
      tieCache.mHead ∈ [0, 1, 2, 3] ∧
      (∀ fuel, ResourceInMemoryCache.last (fuel + 1) tieCache = Except.ok 1) ∧
      offsetAt tieCache.blocks 1 < offsetAt tieCache.blocks 3) ∧
    ∃ s, run (ResourceInMemoryCache.create (fun _ => 0)) tieOps = Except.ok s ∧
      IsRing s.blocks [5, 2, 3, 4] ∧ [5, 2, 3, 4].map (offsetAt s.blocks) = [0, 5, 5, 10] ∧
      s.mHead = 2 ∧ (∀ fuel, ResourceInMemoryCache.last (fuel + 1) s = Except.ok 2) :=
  ⟨⟨by decide, by decide, by decide, fun _ => rfl, by decide⟩,
    _, rfl, by decide, by decide, rfl, fun _ => rfl⟩

/-- Where `last()` is right: in a well-formed ring whose offsets strictly increase
along `next` except for the single wrap edge (`l` lists the ring from its lowest
block), with the cursor at any block of the ring, `last()` returns (within as many
rounds as the ring has blocks) a block of the ring whose offset is greater than or
equal to the offset of every block of the ring. -/
theorem last_highest (s : ResourceInMemoryCache) (l : List Ptr) (fuel : Nat)
    (hr : IsRing s.blocks l)
    (hord : (l.map (offsetAt s.blocks)).Pairwise (· < ·))
    (hh : s.mHead ∈ l) (hfuel : l.length ≤ fuel) :
    ∃ p, ResourceInMemoryCache.last fuel s = Except.ok p ∧ p ∈ l ∧
      ∀ q ∈ l, offsetAt s.blocks q ≤ offsetAt s.blocks p := by
  obtain ⟨pre, post, rfl⟩ := List.append_of_mem hh
  obtain ⟨hne, hnd, hch, hcl⟩ := hr
  -- the first block of the listing
  obtain ⟨a, ha⟩ : ∃ a, (pre ++ s.mHead :: post).head? = some a := by
    cases pre <;> simp
  have hamem : a ∈ pre ++ s.mHead :: post := List.mem_of_mem_head? ha
  obtain ⟨ab, hab⟩ := isRing_live ⟨hne, hnd, hch, hcl⟩ hamem
  have hlast : (pre ++ s.mHead :: post).getLast? = (s.mHead :: post).getLast? :=
    List.getLast?_append_of_ne_nil _ (List.cons_ne_nil _ _)
  have hord2 : ((s.mHead :: post).map (offsetAt s.blocks)).Pairwise (· < ·) := by
    rw [List.map_append] at hord
    exact (List.pairwise_append.mp hord).2.1
  have hmax : ∀ z ∈ (s.mHead :: post).getLast?,
      ∀ q ∈ pre ++ s.mHead :: post, offsetAt s.blocks q ≤ offsetAt s.blocks z := by
    intro z hz q hq
    rw [← hlast] at hz
    obtain ⟨ys, hys⟩ := List.getLast?_eq_some_iff.mp hz
    rw [hys] at hq hord
    rw [List.map_append] at hord
    rcases List.mem_append.mp hq with hq | hq
    · exact Nat.le_of_lt ((List.pairwise_append.mp hord).2.2 _
        (List.mem_map_of_mem _ hq) _ (by simp))
    · simp only [List.mem_singleton] at hq
      rw [hq]
  obtain ⟨z, hz, hl⟩ := lastLoop_walk s.blocks a ab hab post s.mHead fuel
    (List.Chain'.right_of_append hch)
    (fun z hz => ⟨(hcl z (by rw [hlast]; exact hz) a ha).1, by
      have := hmax z hz a hamem
      simpa [offsetAt, hab] using this⟩)
    hord2 (by
      have : (pre ++ s.mHead :: post).length = pre.length + (post.length + 1) := by simp
      omega)
  refine ⟨z, hl, ?_, hmax z hz⟩
  exact List.mem_append_right _ (List.mem_of_mem_getLast? hz)

/-- The ring of `abcCache` after the wrap-around scenario has no two blocks of one
offset: listed from its lowest block it is `[0, 2, 3]` with offsets 20, 40, 80, the
cursor is at block 0, and `last()` returns a block of the highest offset. -/
theorem last_highest_witness :
    IsRing abcCache.blocks [0, 2, 3] ∧
    ([0, 2, 3].map (offsetAt abcCache.blocks)).Pairwise (· < ·) ∧
    abcCache.mHead ∈ [0, 2, 3] ∧ [0, 2, 3].length ≤ 3 ∧
    ∃ p, ResourceInMemoryCache.last 3 abcCache = Except.ok p ∧ p ∈ [0, 2, 3] ∧
      ∀ q ∈ [0, 2, 3], offsetAt abcCache.blocks q ≤ offsetAt abcCache.blocks p :=
  ⟨by decide, by decide, by decide, by decide,
    last_highest abcCache [0, 2, 3] 3 (by decide) (by decide) (by decide) (by decide)⟩

/-! ## FIFO eviction -/

theorem putAll_append (size : Nat) (l1 l2 : List (ResourceId × (Nat → Byte))) :
    ∀ (s : ResourceInMemoryCache),
      putAll size (l1 ++ l2) s = putAll size l1 s >>= putAll size l2 := by
  induction l1 with
  | nil => intro s; rfl
  | cons r rs ih =>
    intro s
    simp only [List.cons_append, putAll]
    cases ResourceInMemoryCache.put s r.1 size r.2 with
    | error e => rfl
    | ok s1 => simp only [ok_bind]; exact ih s1

theorem absWalk_done (size : Nat) (c : Entry) (R : List Entry)
    (idx : ResourceId → Option Nat) (h : size ≤ c.size) :
    absWalk size c R idx = (c, R, idx) := by
  cases R with
  | nil => rfl
  | cons n R => simp [absWalk, h]

/-- One `put` while the cache is being filled: nothing is evicted. -/
theorem fill_step (sz : Nat) (s : ResourceInMemoryCache) (m : Nat) (done : List ResourceId)
    (id : ResourceId) (data : Nat → Byte) (hshape : FillShape sz s (m + 1) done)
    (hsz : 1 ≤ sz) (hB : sz ≤ s.mBufferSize) (hnew : id ∉ done)
    (hdone : ∀ k ∈ done, k ≠ "") :
    ∃ s2, ResourceInMemoryCache.put s id sz data = Except.ok s2 ∧
      FillShape sz s2 m (done ++ [id]) ∧ s2.mBufferSize = s.mBufferSize := by
  obtain ⟨ptrs, L, E, hrep, hids, hE, hL⟩ := hshape
  rcases hL with ⟨h0, -⟩ | ⟨-, o, rfl⟩
  · omega
  obtain ⟨r, c, R, rfl, hcR⟩ := rep_cons hrep
  simp only [List.cons.injEq] at hcR
  obtain ⟨rfl, rfl⟩ := hcR
  have hle : sz ≤ (m + 1) * sz := Nat.le_mul_of_pos_left sz (by omega)
  have htot : sz ≤ totalSize ({ offset := o, size := (m + 1) * sz, id := "" } :: E) := by
    simp only [totalSize, List.map_cons, List.sum_cons]
    omega
  obtain ⟨s2, ptrs2, hput, hrep2, hc2, -, hsz2⟩ := put_sim s r _ _ id sz data hrep hB htot
  have hw : absWalk sz { offset := o, size := (m + 1) * sz, id := "" } E
      (ResourceInMemoryCache.erase s.mCache "") =
      ({ offset := o, size := (m + 1) * sz, id := "" }, E,
        ResourceInMemoryCache.erase s.mCache "") := absWalk_done _ _ _ _ hle
  simp only [absPut, hw] at hrep2 hc2
  have hnewids : (E ++ [({ offset := o, size := sz, id := id } : Entry)]).map Entry.id =
      done ++ [id] := by simp [hids]
  have hidx : ∀ k, k ≠ "" → k ≠ id → s2.mCache k = s.mCache k := by
    intro k hk hki
    rw [hc2]
    split <;> simp [ResourceInMemoryCache.insert, ResourceInMemoryCache.erase, hk, hki]
  have hidn : s2.mCache id = some o := by
    rw [hc2]
    split <;> simp [ResourceInMemoryCache.insert]
  have hnewE : ∀ e ∈ E ++ [({ offset := o, size := sz, id := id } : Entry)],
      e.size = sz ∧ s2.mCache e.id = some e.offset := by
    intro e he
    rcases List.mem_append.mp he with he | he
    · have hmem : e.id ∈ done := by
        rw [← hids]
        exact List.mem_map_of_mem _ he
      refine ⟨(hE e he).1, ?_⟩
      rw [hidx e.id (hdone _ hmem) (fun h => hnew (h ▸ hmem))]
      exact (hE e he).2
    · simp only [List.mem_singleton] at he
      subst he
      exact ⟨rfl, hidn⟩
  refine ⟨s2, hput, ?_, hsz2⟩
  by_cases hm : sz < (m + 1) * sz
  · rw [if_pos hm] at hrep2
    have hmpos : 0 < m := by
      rcases Nat.eq_zero_or_pos m with h | h
      · subst h; omega
      · exact h
    refine ⟨ptrs2, _, E ++ [{ offset := o, size := sz, id := id }], hrep2, hnewids, hnewE,
      Or.inr ⟨hmpos, (o + sz) % s.mBufferSize, ?_⟩⟩
    have : (m + 1) * sz - sz = m * sz := by
      rw [Nat.add_mul, Nat.one_mul, Nat.add_sub_cancel]
    show _ :: E ++ _ = _
    rw [List.cons_append, this]
  · rw [if_neg hm] at hrep2
    have hm0 : m = 0 := by
      rcases Nat.eq_zero_or_pos m with h | h
      · exact h
      · exfalso
        apply hm
        calc sz = 1 * sz := (Nat.one_mul sz).symm
          _ < (m + 1) * sz := Nat.mul_lt_mul_of_pos_right (by omega) (by omega)
    exact ⟨ptrs2, _, E ++ [{ offset := o, size := sz, id := id }], hrep2, hnewids, hnewE,
      Or.inl ⟨hm0, rfl⟩⟩

/-- Filling the cache: after as many `put`s as fit, the ring holds the entries of all
their ids, in the order of admission, and the index has them. -/
theorem fill_phase (sz : Nat) (hsz : 1 ≤ sz) :
    ∀ (todo : List (ResourceId × (Nat → Byte))) (s : ResourceInMemoryCache)
      (done : List ResourceId),
      FillShape sz s todo.length done → (∀ r ∈ todo, r.1 ≠ "") →
      (∀ k ∈ done, k ≠ "") → (done ++ todo.map Prod.fst).Nodup → sz ≤ s.mBufferSize →
      ∃ s2, putAll sz todo s = Except.ok s2 ∧
        FillShape sz s2 0 (done ++ todo.map Prod.fst) ∧
        s2.mBufferSize = s.mBufferSize := by
  intro todo
  induction todo with
  | nil =>
    intro s done hshape _ _ _ _
    exact ⟨s, rfl, by simpa using hshape, rfl⟩
  | cons r rs ih =>
    intro s done hshape hne hdone hnd hB
    have hnew : r.1 ∉ done := by
      intro h
      have h2 := (List.nodup_cons.mp (List.nodup_middle.mp hnd)).1
      exact h2 (List.mem_append_left _ h)
    obtain ⟨s1, hput, hshape1, hsz1⟩ :=
      fill_step sz s rs.length done r.1 r.2 hshape hsz hB hnew hdone
    have hdone1 : ∀ k ∈ done ++ [r.1], k ≠ "" := by
      intro k hk
      rcases List.mem_append.mp hk with hk | hk
      · exact hdone k hk
      · simp only [List.mem_singleton] at hk
        rw [hk]
        exact hne r (by simp)
    obtain ⟨s2, hall, hshape2, hsz2⟩ :=
      ih s1 (done ++ [r.1]) hshape1 (fun x hx => hne x (List.mem_cons_of_mem _ hx)) hdone1
        (by simpa using hnd) (by rw [hsz1]; exact hB)
    refine ⟨s2, ?_, ?_, ?_⟩
    · simp only [putAll, hput, ok_bind]
      exact hall
    · simpa using hshape2
    · rw [hsz2, hsz1]

/-- One `put` into the full cache: exactly the oldest entry is evicted. -/
theorem evict_step (sz : Nat) (s : ResourceInMemoryCache) (id0 : ResourceId)
    (rest : List ResourceId) (id : ResourceId) (data : Nat → Byte)
    (hshape : FillShape sz s 0 (id0 :: rest)) (hB : sz ≤ s.mBufferSize)
    (hnd : (id0 :: (rest ++ [id])).Nodup) (hne : ∀ k ∈ rest, k ≠ "") :
    ∃ s2, ResourceInMemoryCache.put s id sz data = Except.ok s2 ∧
      s2.mCache id0 = none ∧ FillShape sz s2 0 (rest ++ [id]) := by
  obtain ⟨ptrs, L, E, hrep, hids, hE, hL⟩ := hshape
  rcases hL with ⟨-, rfl⟩ | ⟨h0, -⟩
  swap
  · omega
  obtain ⟨r, c, R, rfl, rfl⟩ := rep_cons hrep
  have hids2 : c.id = id0 ∧ R.map Entry.id = rest := by simpa using hids
  obtain ⟨hcid, hRids⟩ := hids2
  have hcsz : c.size = sz := (hE c (by simp)).1
  have htot : sz ≤ totalSize (c :: R) := by
    simp only [totalSize, List.map_cons, List.sum_cons]
    omega
  obtain ⟨s2, ptrs2, hput, hrep2, hc2, -, -⟩ := put_sim s r c R id sz data hrep hB htot
  have hw : absWalk sz { c with id := "" } R (ResourceInMemoryCache.erase s.mCache c.id) =
      ({ c with id := "" }, R, ResourceInMemoryCache.erase s.mCache c.id) :=
    absWalk_done _ _ _ _ (by show sz ≤ c.size; omega)
  have hnlt : ¬ sz < ({ c with id := "" } : Entry).size := by
    show ¬ sz < c.size
    omega
  simp only [absPut, hw, if_neg hnlt] at hrep2 hc2
  rw [hcid] at hc2
  have hid : id0 ≠ id := by
    intro h
    exact (List.nodup_cons.mp hnd).1 (by simp [h])
  have hnr : id ∉ rest := by
    intro h
    have h2 := (List.nodup_cons.mp hnd).2
    rw [List.nodup_append] at h2
    exact h2.2.2 h (by simp)
  refine ⟨s2, hput, ?_, ptrs2, _, R ++ [{ offset := c.offset, size := sz, id := id }], hrep2,
    by simp [hRids], ?_, Or.inl ⟨rfl, rfl⟩⟩
  · rw [hc2]
    simp [ResourceInMemoryCache.insert, ResourceInMemoryCache.erase, hid]
  · intro e he
    rcases List.mem_append.mp he with he | he
    · have hmem : e.id ∈ rest := by
        rw [← hRids]
        exact List.mem_map_of_mem _ he
      have h1 : e.id ≠ "" := hne _ hmem
      have h2 : e.id ≠ id0 := by
        intro h
        exact (List.nodup_cons.mp hnd).1 (by rw [← h]; exact List.mem_append_left _ hmem)
      have h3 : e.id ≠ id := fun h => hnr (h ▸ hmem)
      refine ⟨(hE e (List.mem_cons_of_mem _ he)).1, ?_⟩
      rw [hc2]
      simp only [ResourceInMemoryCache.insert, ResourceInMemoryCache.erase, h1, h2, h3,
        if_false]
      exact (hE e (List.mem_cons_of_mem _ he)).2
    · simp only [List.mem_singleton] at he
      subst he
      refine ⟨rfl, ?_⟩
      rw [hc2]
      simp [ResourceInMemoryCache.insert]

/-- C2, refuted as stated, at `N = 2` and `s = 0`: on a cleared cache of `2 * 0` bytes,
after the `put`s of "x", "a" and "y" (of 0 bytes each) the id "a", which was not
admitted first, misses. -/
theorem fifo_zero_size_counterexample :
    ∃ s0 s3,
      ResourceInMemoryCache.clear (ResourceInMemoryCache.create (fun _ => 0)) =
        Except.ok s0 ∧ s0.mBufferSize = 2 * 0 ∧
      putAll 0 [("x", fun _ => 0), ("a", fun _ => 0), ("y", fun _ => 0)] s0 = Except.ok s3 ∧
      ResourceInMemoryCache.get s3 "a" 0 = Except.ok none :=
  ⟨_, _, rfl, rfl, rfl, rfl⟩

/-- C2, amended (on `put`, `get` and `clear` as modelled from the spec): for every
`N ≥ 1` and every resource size `sz ≥ 1`, on a cleared cache whose buffer size is
`N * sz`, the `put`s of `N + 1` distinct non-empty ids of size `sz` (`first`, the
`N - 1` ids of `middle`, then `last`) return in order; afterwards the first-admitted id
misses and each of the other `N` ids hits. -/
theorem fifo_eviction (N sz : Nat) (s : ResourceInMemoryCache) (ptrs : List Ptr)
    (first : ResourceId × (Nat → Byte)) (middle : List (ResourceId × (Nat → Byte)))
    (last : ResourceId × (Nat → Byte))
    (hN : middle.length + 1 = N) (hsz : 1 ≤ sz) (hwf : WellFormed s ptrs)
    (hB : s.mBufferSize = N * sz)
    (hnd : (first.1 :: (middle.map Prod.fst ++ [last.1])).Nodup)
    (hne : ∀ id ∈ first.1 :: (middle.map Prod.fst ++ [last.1]), id ≠ "") :
    ∃ s0 s2, ResourceInMemoryCache.clear s = Except.ok s0 ∧
      putAll sz (first :: (middle ++ [last])) s0 = Except.ok s2 ∧
      ResourceInMemoryCache.get s2 first.1 sz = Except.ok none ∧
      ∀ r ∈ middle ++ [last], ∃ bytes,
        ResourceInMemoryCache.get s2 r.1 sz = Except.ok (some bytes) := by
  obtain ⟨s0, hcl, hb0, hh0, hc0, hbrk0, -, hsz0⟩ := clear_spec s ptrs hwf
  have hrep0 := rep_clear s s0 ptrs hwf hb0 hh0 hbrk0
  have hBs : sz ≤ s0.mBufferSize := by
    rw [hsz0, hB, ← hN]
    exact Nat.le_mul_of_pos_left sz (by omega)
  have hshape0 : FillShape sz s0 (first :: middle).length [] := by
    refine ⟨_, _, [], hrep0, rfl, by simp, Or.inr ⟨by simp, 0, ?_⟩⟩
    rw [hB, ← hN]
    simp
  have hnd1 : ([] ++ (first :: middle).map Prod.fst).Nodup := by
    refine hnd.sublist ?_
    simp only [List.nil_append, List.map_cons]
    exact List.Sublist.cons₂ _ (List.sublist_append_left _ _)
  obtain ⟨s1, hall1, hshape1, hsz1⟩ :=
    fill_phase sz hsz (first :: middle) s0 [] hshape0
      (fun r hr => hne r.1 (by
        rcases List.mem_cons.mp hr with h | h
        · simp [h]
        · exact List.mem_cons_of_mem _
            (List.mem_append_left _ (List.mem_map_of_mem _ h))))
      (by simp) hnd1 hBs
  obtain ⟨s2, hput2, hmiss, ptrs2, L2, E2, hrep2, hids2, hE2, hL2⟩ :=
    evict_step sz s1 first.1 (middle.map Prod.fst) last.1 last.2
      (by simpa using hshape1) (by rw [hsz1]; exact hBs) hnd
      (fun k hk => hne k (List.mem_cons_of_mem _ (List.mem_append_left _ hk)))
  refine ⟨s0, s2, hcl, ?_, get_miss sz hmiss, ?_⟩
  · have : first :: (middle ++ [last]) = (first :: middle) ++ [last] := rfl
    rw [this, putAll_append, hall1, ok_bind]
    simp only [putAll, hput2, ok_bind]
  · intro r hr
    have hLE : L2 = E2 := by
      rcases hL2 with ⟨-, h⟩ | ⟨h, -⟩
      · exact h
      · omega
    subst hLE
    have hmem : r.1 ∈ L2.map Entry.id := by
      rw [hids2]
      rcases List.mem_append.mp hr with hr | hr
      · exact List.mem_append_left _ (List.mem_map_of_mem _ hr)
      · simp only [List.mem_singleton] at hr
        rw [hr]
        simp
    obtain ⟨e, he, hid⟩ := List.mem_map.mp hmem
    obtain ⟨hes, hei⟩ := hE2 e he
    obtain ⟨p, hp, hpe⟩ := rep_mem hrep2 he
    refine ⟨_, get_hit ⟨hrep2.1, hrep2.2.1, hrep2.2.2.1⟩ (hid ▸ hei) ⟨p, hp, ?_⟩⟩
    rw [hpe, ← hid, ← hes]

/-- C2 amended, at `N = 2` and `sz = 3`: a cache of 6 bytes and the ids "x", "a", "y". -/
theorem fifo_eviction_witness :
    [(("a" : ResourceId), fun (_ : Nat) => (0 : Byte))].length + 1 = 2 ∧ 1 ≤ 3 ∧
    WellFormed { ResourceInMemoryCache.create (fun _ => 0) with mBufferSize := 6 } [0] ∧
    ∃ s0 s2,
      ResourceInMemoryCache.clear
        { ResourceInMemoryCache.create (fun _ => 0) with mBufferSize := 6 } = Except.ok s0 ∧
      putAll 3 (("x", fun _ => 0) :: ([("a", fun _ => 0)] ++ [("y", fun _ => 0)])) s0 =
        Except.ok s2 ∧
      ResourceInMemoryCache.get s2 "x" 3 = Except.ok none ∧
      ∀ r ∈ [(("a" : ResourceId), fun (_ : Nat) => (0 : Byte))] ++ [("y", fun _ => 0)],
        ∃ bytes, ResourceInMemoryCache.get s2 r.1 3 = Except.ok (some bytes) :=
  ⟨rfl, by decide, by decide,
    fifo_eviction 2 3 { ResourceInMemoryCache.create (fun _ => 0) with mBufferSize := 6 } [0]
      ("x", fun _ => 0) [("a", fun _ => 0)] ("y", fun _ => 0) rfl (by decide) (by decide) rfl
      (by decide) (by decide)⟩

/-! ## `first` -/

/-- In a ring whose offsets strictly increase along the listing `l`, `last()` returns
the last block of the listing, from any block of the ring. -/
theorem last_returns_last (s : ResourceInMemoryCache) (l : List Ptr) (fuel : Nat)
    (hr : IsRing s.blocks l)
    (hord : (l.map (offsetAt s.blocks)).Pairwise (· < ·))
    (hh : s.mHead ∈ l) (hfuel : l.length ≤ fuel) :
    ∃ z, l.getLast? = some z ∧ ResourceInMemoryCache.last fuel s = Except.ok z := by
  obtain ⟨pre, post, rfl⟩ := List.append_of_mem hh
  obtain ⟨hne, hnd, hch, hcl⟩ := hr
  obtain ⟨a, ha⟩ : ∃ a, (pre ++ s.mHead :: post).head? = some a := by
    cases pre <;> simp
  have hamem : a ∈ pre ++ s.mHead :: post := List.mem_of_mem_head? ha
  obtain ⟨ab, hab⟩ := isRing_live ⟨hne, hnd, hch, hcl⟩ hamem
  have hlast : (pre ++ s.mHead :: post).getLast? = (s.mHead :: post).getLast? :=
    List.getLast?_append_of_ne_nil _ (List.cons_ne_nil _ _)
  have hord2 : ((s.mHead :: post).map (offsetAt s.blocks)).Pairwise (· < ·) := by
    rw [List.map_append] at hord
    exact (List.pairwise_append.mp hord).2.1
  have hhead : ∀ z ∈ (s.mHead :: post).getLast?,
      offsetAt s.blocks a ≤ offsetAt s.blocks z := by
    intro z hz
    rw [← hlast] at hz
    obtain ⟨ys, hys⟩ := List.getLast?_eq_some_iff.mp hz
    rw [hys] at hamem hord
    rw [List.map_append] at hord
    rcases List.mem_append.mp hamem with hq | hq
    · exact Nat.le_of_lt ((List.pairwise_append.mp hord).2.2 _
        (List.mem_map_of_mem _ hq) _ (by simp))
    · simp only [List.mem_singleton] at hq
      rw [hq]
  obtain ⟨z, hz, hl⟩ := lastLoop_walk s.blocks a ab hab post s.mHead fuel
    (List.Chain'.right_of_append hch)
    (fun z hz => ⟨(hcl z (by rw [hlast]; exact hz) a ha).1, by
      have := hhead z hz
      simpa [offsetAt, hab] using this⟩)
    hord2 (by
      have : (pre ++ s.mHead :: post).length = pre.length + (post.length + 1) := by simp
      omega)
  exact ⟨z, by rw [hlast]; exact hz, hl⟩

/-- C11, the code at the failing input: `first()` does not return the block with the
lowest offset. In `tieCache` (a well-formed ring, offsets 0, 5, 5, 10 non-decreasing
along `next` from block 0, single wrap edge from block 3 to block 0, cursor at block 1
of the ring) `last()` stops at block 1, whose successor has the same offset, and
`first()`, which is `last()->next`, returns block 2 (offset 5), although block 0 has
offset 0. The calls `tieOps` on a newly created cache lead to this ring at the
addresses `[5, 2, 3, 4]`, where `first()` returns block 3 (offset 5) and block 5 has
offset 0. -/
theorem first_misses_lowest_at_tie :
    (IsRing tieCache.blocks [0, 1, 2, 3] ∧
      ([0, 1, 2, 3].map (offsetAt tieCache.blocks)).Pairwise (· ≤ ·) ∧
      tieCache.mHead ∈ [0, 1, 2, 3] ∧
      (∀ fuel, ResourceInMemoryCache.first (fuel + 1) tieCache = Except.ok 2) ∧
      offsetAt tieCache.blocks 0 < offsetAt tieCache.blocks 2) ∧
    ∃ s, run (ResourceInMemoryCache.create (fun _ => 0)) tieOps = Except.ok s ∧
      IsRing s.blocks [5, 2, 3, 4] ∧ [5, 2, 3, 4].map (offsetAt s.blocks) = [0, 5, 5, 10] ∧
      s.mHead = 2 ∧ (∀ fuel, ResourceInMemoryCache.first (fuel + 1) s = Except.ok 3) :=
  ⟨⟨by decide, by decide, by decide, fun _ => rfl, by decide⟩,
    _, rfl, by decide, by decide, rfl, fun _ => rfl⟩

/-- Where `first()` is right: in a well-formed ring whose offsets strictly increase
along `next` except for the single wrap edge (`l` lists the ring from its lowest
block), with the cursor at any block of the ring, `first()` returns (within as many
rounds as the ring has blocks) the block the listing starts with, whose offset is less
than or equal to the offset of every block of the ring; on a single-block ring
`first()` and `last()` return that same block. -/
theorem first_lowest (s : ResourceInMemoryCache) (l : List Ptr) (fuel : Nat)
    (hr : IsRing s.blocks l)
    (hord : (l.map (offsetAt s.blocks)).Pairwise (· < ·))
    (hh : s.mHead ∈ l) (hfuel : l.length ≤ fuel) :
    (∃ p, ResourceInMemoryCache.first fuel s = Except.ok p ∧ l.head? = some p ∧
      ∀ q ∈ l, offsetAt s.blocks p ≤ offsetAt s.blocks q) ∧
    (l.length = 1 → ResourceInMemoryCache.first fuel s = Except.ok s.mHead ∧
      ResourceInMemoryCache.last fuel s = Except.ok s.mHead) := by
  obtain ⟨z, hz, hl⟩ := last_returns_last s l fuel hr hord hh hfuel
  cases l with
  | nil => simp at hh
  | cons a t =>
    have hcl := hr.2.2.2 z hz a (by simp)
    obtain ⟨zb, hzb, hzn⟩ := nextOf_eq_some hcl.1
    have hfirst : ResourceInMemoryCache.first fuel s = Except.ok a := by
      simp [ResourceInMemoryCache.first, hl, deref, hzb, hzn]
    refine ⟨⟨a, hfirst, by simp, ?_⟩, ?_⟩
    · intro q hq
      rcases List.mem_cons.mp hq with rfl | hq
      · exact Nat.le_refl _
      · rw [List.map_cons, List.pairwise_cons] at hord
        exact Nat.le_of_lt (hord.1 _ (List.mem_map_of_mem _ hq))
    · intro hlen
      have ht : t = [] := by
        cases t with
        | nil => rfl
        | cons b t => simp at hlen
      subst ht
      have ha : s.mHead = a := by simpa using hh
      have hza : z = a := by simpa using hz.symm
      rw [ha, hfirst, hl, hza]
      exact ⟨rfl, rfl⟩

/-- The ring of `abcCache` (listing `[0, 2, 3]`, offsets 20, 40, 80, cursor at block
0), where `first()` returns the lowest block, and the single-block ring of `seedCache`,
where `first()` and `last()` both return block 0. -/
theorem first_lowest_witness :
    (IsRing abcCache.blocks [0, 2, 3] ∧
      ([0, 2, 3].map (offsetAt abcCache.blocks)).Pairwise (· < ·) ∧
      abcCache.mHead ∈ [0, 2, 3] ∧ [0, 2, 3].length ≤ 3 ∧
      ∃ p, ResourceInMemoryCache.first 3 abcCache = Except.ok p ∧ [0, 2, 3].head? = some p ∧
        ∀ q ∈ [0, 2, 3], offsetAt abcCache.blocks p ≤ offsetAt abcCache.blocks q) ∧
    (IsRing seedCache.blocks [0] ∧ seedCache.mHead ∈ [0] ∧ [0].length ≤ 1 ∧
      ResourceInMemoryCache.first 1 seedCache = Except.ok seedCache.mHead ∧
      ResourceInMemoryCache.last 1 seedCache = Except.ok seedCache.mHead) :=
  ⟨⟨by decide, by decide, by decide, by decide,
      (first_lowest abcCache [0, 2, 3] 3 (by decide) (by decide) (by decide) (by decide)).1⟩,
    ⟨by decide, by decide, by decide,
      (first_lowest seedCache [0] 1 (by decide) (by decide) (by decide) (by decide)).2 rfl⟩⟩

/-! ## `destroy` -/

/-- The block a ring is listed from has the last block of the listing as its `prev`. -/
theorem isRing_head_prev {m : Mem} {a : Ptr} {t : List Ptr} (hr : IsRing m (a :: t)) :
    prevOf m a = (a :: t).getLast? := by
  obtain ⟨z, hz⟩ : ∃ z, (a :: t).getLast? = some z :=
    ⟨_, List.getLast?_eq_getLast _ (List.cons_ne_nil _ _)⟩
  rw [hz]
  exact (hr.2.2.2 z hz a (by simp)).2

/-- The neighbours of a block `b` of a ring: its `next` is the block after it and its
`prev` the block before it in the listing of the ring from `b`. -/
theorem isRing_neighbours {m : Mem} {pre post : List Ptr} {b : Ptr} {blk : Block}
    (hr : IsRing m (pre ++ b :: post)) (hb : m b = some blk) :
    ((post ++ pre) ++ [b]).head? = some blk.next ∧
      (b :: (post ++ pre)).getLast? = some blk.prev := by
  have h1 : IsRing m (b :: (post ++ pre)) := isRing_rotate pre (b :: post) hr
  refine ⟨?_, ?_⟩
  · rw [← isRing_head_next h1]
    simp [nextOf, hb]
  · rw [← isRing_head_prev h1]
    simp [prevOf, hb]

/-- The neighbours of a block of a ring of at least two blocks are blocks of the rest
of the ring. -/
theorem isRing_neighbours_rest {m : Mem} {pre post : List Ptr} {b : Ptr} {blk : Block}
    (hr : IsRing m (pre ++ b :: post)) (hb : m b = some blk) (h2 : pre ++ post ≠ []) :
    (post ++ pre).head? = some blk.next ∧ (post ++ pre).getLast? = some blk.prev := by
  obtain ⟨h1, h3⟩ := isRing_neighbours hr hb
  cases hpp : post ++ pre with
  | nil =>
    exfalso
    apply h2
    have := List.append_eq_nil.mp hpp
    simp [this.1, this.2]
  | cons n r =>
    rw [hpp] at h1 h3
    exact ⟨by simpa using h1, by simpa using h3⟩

/-- C12: on a well-formed ring of at least two blocks, `destroy(b)` of a block `b` of
the ring returns the former successor of `b` (the block after `b` in the listing),
leaves a well-formed ring of exactly the other blocks in their former order, in which
the former predecessor and successor of `b` are neighbours, deletes `b`, removes the
id of `b` from the identifier index, and leaves every other index entry and the
offset, size and id of every other block unchanged. -/
theorem destroy_frees_unlinks_returns_next (s : ResourceInMemoryCache) (b : Ptr)
    (blk : Block) (pre post : List Ptr) (hb : s.blocks b = some blk)
    (hr : IsRing s.blocks (pre ++ b :: post)) (h2 : pre ++ post ≠ []) :
    ∃ s2, ResourceInMemoryCache.destroy s b = Except.ok (s2, blk.next) ∧
      (post ++ pre).head? = some blk.next ∧ (post ++ pre).getLast? = some blk.prev ∧
      IsRing s2.blocks (pre ++ post) ∧ Adj s2.blocks blk.prev blk.next ∧
      s2.blocks b = none ∧ s2.mCache blk.id = none ∧
      (∀ k, k ≠ blk.id → s2.mCache k = s.mCache k) ∧
      (∀ q, q ≠ b → (s2.blocks q).map payload = (s.blocks q).map payload) := by
  obtain ⟨s2, hd, hr2, hdel, hpl, hc, -, -, -, -⟩ := destroy_spec s b blk pre post hb hr h2
  obtain ⟨hnx, hpv⟩ := isRing_neighbours_rest hr hb h2
  have hr3 : IsRing s2.blocks (post ++ pre) := isRing_rotate pre post hr2
  refine ⟨s2, hd, hnx, hpv, hr2, hr3.2.2.2 _ hpv _ hnx, hdel, ?_, ?_, hpl⟩
  · rw [hc]
    simp [ResourceInMemoryCache.erase]
  · intro k hk
    rw [hc]
    simp [ResourceInMemoryCache.erase, hk]

/-- C12 at block 2 (the resource "b") of the ring `[0, 2, 3]` of `abcCache`. -/
theorem destroy_frees_unlinks_returns_next_witness :
    abcCache.blocks 2 = some { offset := 40, size := 40, id := "b", next := 3, prev := 0 } ∧
    IsRing abcCache.blocks ([0] ++ 2 :: [3]) ∧ [0] ++ [3] ≠ ([] : List Ptr) ∧
    ∃ s2, ResourceInMemoryCache.destroy abcCache 2 = Except.ok (s2, 3) ∧
      ([3] ++ [0]).head? = some 3 ∧ ([3] ++ [0]).getLast? = some 0 ∧
      IsRing s2.blocks ([0] ++ [3]) ∧ Adj s2.blocks 0 3 ∧
      s2.blocks 2 = none ∧ s2.mCache "b" = none ∧
      (∀ k, k ≠ "b" → s2.mCache k = abcCache.mCache k) ∧
      (∀ q, q ≠ 2 → (s2.blocks q).map payload = (abcCache.blocks q).map payload) :=
  ⟨rfl, by decide, by decide,
    destroy_frees_unlinks_returns_next abcCache 2 _ [0] [3] rfl (by decide) (by decide)⟩

/-! ## `foreach_block` -/

/-- Running a traced callback over a list of blocks records exactly that list. -/
theorem foldlM_traced {σ : Type} (cb : Ptr → σ → Except Fault σ) :
    ∀ (l : List Ptr) (w : σ) (log : List Ptr),
      List.foldlM (fun st block => traced cb block st) (w, log) l =
        (List.foldlM (fun st block => cb block st) w l).map (fun w2 => (w2, log ++ l)) := by
  intro l
  induction l with
  | nil => intro w log; simp [Except.map, pure, Except.pure]
  | cons x r ih =>
    intro w log
    simp only [List.foldlM_cons, traced]
    cases hcb : cb x w with
    | error e => rfl
    | ok w1 =>
      simp only [Except.map, ok_bind]
      have := ih w1 (log ++ [x])
      simp only [traced, Except.map] at this
      rw [this]
      simp

/-- C13: on a well-formed ring, `foreach_block(first, cb)` of a block `first` of the
ring does (within as many loop tests as the ring has blocks) what running `cb` on the
listing of the ring from `first` in `next` order does, one call after the other,
whatever `cb` does to the ring: that listing has each block of the ring exactly once
and starts with `first`, it is read from the store as it is at the call, and a traced
callback records exactly this listing. -/
theorem foreach_block_visits_ring {σ : Type} (blocksOf : σ → Mem) (fuel : Nat)
    (first : Ptr) (cb : Ptr → σ → Except Fault σ) (w : σ) (pre post : List Ptr)
    (hr : IsRing (blocksOf w) (pre ++ first :: post))
    (hfuel : (pre ++ first :: post).length ≤ fuel) :
    ResourceInMemoryCache.foreach_block blocksOf fuel first cb w =
        List.foldlM (fun st block => cb block st) w (first :: (post ++ pre)) ∧
      (first :: (post ++ pre)).Nodup ∧
      (∀ q, q ∈ first :: (post ++ pre) ↔ q ∈ pre ++ first :: post) ∧
      (∀ w2 log, ResourceInMemoryCache.foreach_block (fun st => blocksOf st.1) fuel first
          (traced cb) (w, []) = Except.ok (w2, log) →
        log = first :: (post ++ pre) ∧
        ResourceInMemoryCache.foreach_block blocksOf fuel first cb w = Except.ok w2) := by
  have h1 : IsRing (blocksOf w) (first :: (post ++ pre)) := isRing_rotate pre (first :: post) hr
  have hlen : (post ++ pre).length < fuel := by
    have : (pre ++ first :: post).length = (post ++ pre).length + 1 := by
      simp only [List.length_append, List.length_cons]
      omega
    omega
  obtain ⟨f, hf, hcol⟩ := collect_ring fuel h1 hlen
  have hrun : ∀ {τ : Type} (bo : τ → Mem) (c : Ptr → τ → Except Fault τ) (v : τ),
      bo v = blocksOf w →
      ResourceInMemoryCache.foreach_block bo fuel first c v =
        List.foldlM (fun st block => c block st) v (first :: (post ++ pre)) := by
    intro τ bo c v hbo
    simp only [ResourceInMemoryCache.foreach_block, hbo, deref, hf, ok_bind, hcol]
  refine ⟨hrun blocksOf cb w rfl, h1.2.1, ?_, ?_⟩
  · intro q
    simp only [List.mem_cons, List.mem_append]
    tauto
  · intro w2 log hlog
    rw [hrun (fun st => blocksOf st.1) (traced cb) (w, []) rfl, foldlM_traced] at hlog
    rw [hrun blocksOf cb w rfl]
    cases hres : List.foldlM (fun st block => cb block st) w (first :: (post ++ pre)) with
    | error e => rw [hres] at hlog; simp [Except.map] at hlog
    | ok w3 =>
      rw [hres] at hlog
      simp only [Except.map, Except.ok.injEq, Prod.mk.injEq, List.nil_append] at hlog
      exact ⟨hlog.2.symm, by rw [hlog.1]⟩

/-- C13 at the ring of `abcCache`, from block 2, with the callback that destroys every
block but the cursor block while it is traced: the traced run returns and records the
blocks 2, 3, 0. -/
theorem foreach_block_visits_ring_witness :
    IsRing abcCache.blocks ([0] ++ 2 :: [3]) ∧ ([0] ++ 2 :: [3]).length ≤ 3 ∧
    (∃ w2, ResourceInMemoryCache.foreach_block (fun st => st.1.blocks) 3 2
      (traced destroyOthers) (abcCache, []) = Except.ok (w2, [2, 3, 0])) ∧
    (ResourceInMemoryCache.foreach_block (fun s => s.blocks) 3 2 destroyOthers abcCache =
        List.foldlM (fun st block => destroyOthers block st) abcCache (2 :: ([3] ++ [0])) ∧
      (2 :: ([3] ++ [0])).Nodup ∧
      (∀ q, q ∈ 2 :: ([3] ++ [0]) ↔ q ∈ [0] ++ 2 :: [3]) ∧
      (∀ w2 log, ResourceInMemoryCache.foreach_block (fun st => st.1.blocks) 3 2
          (traced destroyOthers) (abcCache, []) = Except.ok (w2, log) →
        log = 2 :: ([3] ++ [0]) ∧
        ResourceInMemoryCache.foreach_block (fun s => s.blocks) 3 2 destroyOthers abcCache =
          Except.ok w2)) :=
  ⟨by decide, by decide, ⟨_, rfl⟩,
    foreach_block_visits_ring (fun s => s.blocks) 3 2 destroyOthers abcCache [0] [3]
      (by decide) (by decide)⟩

/-! ## Linking and unlinking -/

/-- Two stores are equal when they agree on the links and on the other fields of
every block. -/
theorem mem_ext {m1 m2 : Mem}
    (h : ∀ q, (m1 q).map payload = (m2 q).map payload ∧ nextOf m1 q = nextOf m2 q ∧
      prevOf m1 q = prevOf m2 q) : m1 = m2 := by
  funext q
  obtain ⟨hp, hn, hv⟩ := h q
  unfold nextOf at hn
  unfold prevOf at hv
  cases h1 : m1 q with
  | none =>
    cases h2 : m2 q with
    | none => rfl
    | some b2 => simp [h1, h2] at hp
  | some b1 =>
    cases h2 : m2 q with
    | none => simp [h1, h2] at hp
    | some b2 =>
      simp only [h1, h2, Option.map_some', Option.some.injEq] at hp hn hv
      cases b1
      cases b2
      simp only [payload, Entry.mk.injEq] at hp
      simp only [Option.some.injEq, Block.mk.injEq]
      simp_all

/-- In a ring every block is directly followed by its `next`, a block of the ring. -/
theorem isRing_adj_next {m : Mem} {l : List Ptr} {x : Ptr} {b : Block}
    (hr : IsRing m l) (hx : x ∈ l) (hb : m x = some b) : Adj m x b.next ∧ b.next ∈ l := by
  obtain ⟨pre, post, rfl⟩ := List.append_of_mem hx
  have h1 : IsRing m (x :: (post ++ pre)) := isRing_rotate pre (x :: post) hr
  have hmem : ∀ y, y ∈ x :: (post ++ pre) → y ∈ pre ++ x :: post := by
    intro y hy
    simp only [List.mem_cons, List.mem_append] at hy ⊢
    tauto
  cases hpp : post ++ pre with
  | nil =>
    rw [hpp, isRing_single] at h1
    have : b.next = x := by simpa [nextOf, hb] using h1.1
    rw [this]
    exact ⟨h1, hx⟩
  | cons n r =>
    rw [hpp, isRing_cons_cons] at h1
    have : b.next = n := by simpa [nextOf, hb] using h1.2.1.1
    rw [this]
    exact ⟨h1.2.1, hmem n (by rw [hpp]; simp)⟩

/-- In a ring every block directly follows its `prev`, a block of the ring. -/
theorem isRing_adj_prev {m : Mem} {l : List Ptr} {x : Ptr} {b : Block}
    (hr : IsRing m l) (hx : x ∈ l) (hb : m x = some b) : Adj m b.prev x ∧ b.prev ∈ l := by
  obtain ⟨pre, post, rfl⟩ := List.append_of_mem hx
  have h1 : IsRing m (x :: (post ++ pre)) := isRing_rotate pre (x :: post) hr
  have hmem : ∀ y, y ∈ x :: (post ++ pre) → y ∈ pre ++ x :: post := by
    intro y hy
    simp only [List.mem_cons, List.mem_append] at hy ⊢
    tauto
  obtain ⟨z, hz⟩ : ∃ z, (x :: (post ++ pre)).getLast? = some z :=
    ⟨_, List.getLast?_eq_getLast _ (List.cons_ne_nil _ _)⟩
  have hadj := h1.2.2.2 z hz x (by simp)
  have : b.prev = z := by simpa [prevOf, hb] using hadj.2
  rw [this]
  exact ⟨hadj, hmem z (List.mem_of_mem_getLast? hz)⟩

/-- In a ring, `linkBefore(other)` does to the store what `linkAfter(other->prev)`
does. -/
theorem linkBefore_eq_linkAfter_prev {m : Mem} {l : List Ptr} {this other : Ptr}
    {o : Block} (hr : IsRing m l) (ho : other ∈ l) (hnot : this ∉ l)
    (hs : SelfLinked m this) (hob : m other = some o) :
    Block.linkBefore m this other = Block.linkAfter m this o.prev := by
  obtain ⟨t, ht, hs1⟩ := nextOf_eq_some hs.1
  have hs2 : t.prev = this := by simpa [prevOf, ht] using hs.2
  obtain ⟨hadj, hpmem⟩ := isRing_adj_prev hr ho hob
  obtain ⟨p, hp, hpn⟩ := nextOf_eq_some hadj.1
  have hne1 : this ≠ other := fun h => hnot (h ▸ ho)
  have hne2 : this ≠ o.prev := fun h => hnot (h ▸ hpmem)
  obtain ⟨m3, hm3, hn3, hv3, hp3⟩ :=
    linkBefore_spec m this other t o p ht hs1 hs2 hob hp hne1 hne2
  obtain ⟨m4, hm4, hn4, hv4, hp4⟩ :=
    linkAfter_spec m this o.prev t p o ht hs1 hs2 hp (by rw [hpn]; exact hob) hne2
      (by rw [hpn]; exact hne1)
  rw [hm3, hm4]
  congr 1
  apply mem_ext
  intro q
  refine ⟨by rw [hp3, hp4], ?_, ?_⟩
  · rw [hn3, hn4, hpn]
  · rw [hv3, hv4, hpn]

/-- In a ring, `unlink` right after `linkAfter(other)` gives back the store as it was
before the link. -/
theorem unlink_linkAfter {m : Mem} {l : List Ptr} {this other : Ptr}
    (hr : IsRing m l) (ho : other ∈ l) (hnot : this ∉ l) (hs : SelfLinked m this) :
    ∃ m2, Block.linkAfter m this other = Except.ok m2 ∧
      Block.unlink m2 this = Except.ok m := by
  obtain ⟨t, ht, hs1⟩ := nextOf_eq_some hs.1
  have hs2 : t.prev = this := by simpa [prevOf, ht] using hs.2
  obtain ⟨o, hob⟩ := isRing_live hr ho
  obtain ⟨hadj, hnmem⟩ := isRing_adj_next hr ho hob
  obtain ⟨n, hn, -⟩ := prevOf_eq_some hadj.2
  have hne1 : this ≠ other := fun h => hnot (h ▸ ho)
  have hne2 : this ≠ o.next := fun h => hnot (h ▸ hnmem)
  obtain ⟨m2, hm2, hn2, hv2, hp2⟩ :=
    linkAfter_spec m this other t o n ht hs1 hs2 hob hn hne1 hne2
  have hlive : ∀ q b, m q = some b → ∃ b2, m2 q = some b2 := by
    intro q b hq
    have := hp2 q
    rw [hq] at this
    obtain ⟨b2, hb2, -⟩ := payload_eq_some this
    exact ⟨b2, hb2⟩
  obtain ⟨t2, ht2, ht2n⟩ := nextOf_eq_some
    (show nextOf m2 this = some o.next by rw [hn2, if_neg hne1]; simp)
  have ht2p : t2.prev = other := by
    have : prevOf m2 this = some other := by rw [hv2]; simp
    simpa [prevOf, ht2] using this
  obtain ⟨n2, hn2b⟩ := hlive _ _ hn
  obtain ⟨p2, hp2b⟩ := hlive _ _ hob
  obtain ⟨m3, hm3, hn3, hv3, hp3⟩ :=
    unlink_spec m2 this t2 n2 p2 ht2 (by rw [ht2n]; exact fun h => hne2 h.symm)
      (by rw [ht2p]; exact fun h => hne1 h.symm) (by rw [ht2n]; exact hn2b)
      (by rw [ht2p]; exact hp2b)
  refine ⟨m2, hm2, ?_⟩
  rw [hm3]
  congr 1
  apply mem_ext
  intro q
  refine ⟨by rw [hp3, hp2], ?_, ?_⟩
  · rw [hn3, hn2, ht2n, ht2p]
    by_cases h1 : q = this
    · subst h1
      simp [hs.1]
    · by_cases h2 : q = other
      · subst h2
        simp [h1, hadj.1]
      · simp [h1, h2]
  · rw [hv3, hv2, ht2n, ht2p]
    by_cases h1 : q = this
    · subst h1
      simp [hs.2]
    · by_cases h2 : q = o.next
      · subst h2
        simp [h1, hadj.2]
      · simp [h1, h2]

/-- C14: on a well-formed ring, for a block `other` of the ring and a self-linked
block `this` outside it, `this.linkAfter(other)` returns and makes `this` the
immediate successor of `other` (the ring from `other` is `other`, `this`, then the
former successors of `other` in their former order), `this.linkBefore(other)` returns
and makes `this` the immediate predecessor of `other`; `linkBefore(other)` yields
the very store that `linkAfter(other->prev)` yields; no offset, size or id changes. -/
theorem link_position (m : Mem) (pre post : List Ptr) (this other : Ptr) (o : Block)
    (hr : IsRing m (pre ++ other :: post)) (hnot : this ∉ pre ++ other :: post)
    (hs : SelfLinked m this) (ho : m other = some o) :
    (∃ m2, Block.linkAfter m this other = Except.ok m2 ∧
      IsRing m2 (other :: this :: (post ++ pre)) ∧ Adj m2 other this ∧
      ∀ q, (m2 q).map payload = (m q).map payload) ∧
    (∃ m3, Block.linkBefore m this other = Except.ok m3 ∧
      IsRing m3 (this :: other :: (post ++ pre)) ∧ Adj m3 this other ∧
      (∀ q, (m3 q).map payload = (m q).map payload) ∧
      Block.linkAfter m this o.prev = Except.ok m3) := by
  have h1 : IsRing m (other :: (post ++ pre)) := isRing_rotate pre (other :: post) hr
  have h2 : this ∉ other :: (post ++ pre) := by
    simp only [List.mem_append, List.mem_cons] at hnot ⊢
    tauto
  refine ⟨?_, ?_⟩
  · obtain ⟨m2, hm2, hr2, hpl⟩ := linkAfter_ring_head h1 h2 hs
    exact ⟨m2, hm2, hr2, ((isRing_cons_cons _ _ _ _).mp hr2).2.1, hpl⟩
  · obtain ⟨m3, hm3, hr3, hpl⟩ := linkBefore_ring_head h1 h2 hs
    refine ⟨m3, hm3, hr3, ((isRing_cons_cons _ _ _ _).mp hr3).2.1, hpl, ?_⟩
    rw [← linkBefore_eq_linkAfter_prev hr (by simp) hnot hs ho]
    exact hm3

/-- C14 at the ring `[0, 1]` of `demoMem`, block 1 and the self-linked block 2. -/
theorem link_position_witness :
    IsRing demoMem ([0] ++ 1 :: []) ∧ 2 ∉ [0] ++ 1 :: [] ∧ SelfLinked demoMem 2 ∧
    demoMem 1 = some { offset := 4, size := 6, id := "", next := 0, prev := 0 } ∧
    (∃ m2, Block.linkAfter demoMem 2 1 = Except.ok m2 ∧
      IsRing m2 (1 :: 2 :: ([] ++ [0])) ∧ Adj m2 1 2 ∧
      ∀ q, (m2 q).map payload = (demoMem q).map payload) ∧
    (∃ m3, Block.linkBefore demoMem 2 1 = Except.ok m3 ∧
      IsRing m3 (2 :: 1 :: ([] ++ [0])) ∧ Adj m3 2 1 ∧
      (∀ q, (m3 q).map payload = (demoMem q).map payload) ∧
      Block.linkAfter demoMem 2 0 = Except.ok m3) :=
  ⟨by decide, by decide, by decide, rfl,
    link_position demoMem [0] [] 2 1 _ (by decide) (by decide) (by decide) rfl⟩

/-- C15: on a well-formed ring, for a block `other` of the ring and a self-linked
block `this` outside it, `this.linkAfter(other)` followed by `this.unlink()`, and
likewise `this.linkBefore(other)` followed by `this.unlink()`, return and give back
the store as it was before the link: the `next` and `prev` of every block have their
former values, and `this` is self-linked. -/
theorem unlink_undoes_link (m : Mem) (l : List Ptr) (this other : Ptr)
    (hr : IsRing m l) (ho : other ∈ l) (hnot : this ∉ l) (hs : SelfLinked m this) :
    (∃ m2 m3, Block.linkAfter m this other = Except.ok m2 ∧
      Block.unlink m2 this = Except.ok m3 ∧
      (∀ q, nextOf m3 q = nextOf m q ∧ prevOf m3 q = prevOf m q) ∧ SelfLinked m3 this ∧
      m3 = m) ∧
    (∃ m2 m3, Block.linkBefore m this other = Except.ok m2 ∧
      Block.unlink m2 this = Except.ok m3 ∧
      (∀ q, nextOf m3 q = nextOf m q ∧ prevOf m3 q = prevOf m q) ∧ SelfLinked m3 this ∧
      m3 = m) := by
  refine ⟨?_, ?_⟩
  · obtain ⟨m2, h1, h2⟩ := unlink_linkAfter hr ho hnot hs
    exact ⟨m2, m, h1, h2, fun _ => ⟨rfl, rfl⟩, hs, rfl⟩
  · obtain ⟨o, hob⟩ := isRing_live hr ho
    obtain ⟨-, hpmem⟩ := isRing_adj_prev hr ho hob
    obtain ⟨m2, h1, h2⟩ := unlink_linkAfter hr hpmem hnot hs
    refine ⟨m2, m, ?_, h2, fun _ => ⟨rfl, rfl⟩, hs, rfl⟩
    rw [linkBefore_eq_linkAfter_prev hr ho hnot hs hob]
    exact h1

/-- C15 at the ring `[0, 1]` of `demoMem`, block 1 and the self-linked block 2. -/
theorem unlink_undoes_link_witness :
    IsRing demoMem [0, 1] ∧ 1 ∈ [0, 1] ∧ 2 ∉ [0, 1] ∧ SelfLinked demoMem 2 ∧
    (∃ m2 m3, Block.linkAfter demoMem 2 1 = Except.ok m2 ∧
      Block.unlink m2 2 = Except.ok m3 ∧
      (∀ q, nextOf m3 q = nextOf demoMem q ∧ prevOf m3 q = prevOf demoMem q) ∧
      SelfLinked m3 2 ∧ m3 = demoMem) ∧
    (∃ m2 m3, Block.linkBefore demoMem 2 1 = Except.ok m2 ∧
      Block.unlink m2 2 = Except.ok m3 ∧
      (∀ q, nextOf m3 q = nextOf demoMem q ∧ prevOf m3 q = prevOf demoMem q) ∧
      SelfLinked m3 2 ∧ m3 = demoMem) :=
  ⟨by decide, by decide, by decide, by decide,
    unlink_undoes_link demoMem [0, 1] 2 1 (by decide) (by decide) (by decide) (by decide)⟩

/-! ## The assertion of `unlink`, and the cursor across `destroy` -/

/-- On a block whose `next` is the block itself `unlink` trips its assertion, and so
does `destroy`. -/
theorem destroy_self_next (s : ResourceInMemoryCache) (b : Ptr) (blk : Block)
    (hb : s.blocks b = some blk) (hn : blk.next = b) :
    Block.unlink s.blocks b = Except.error Fault.assertion ∧
      ResourceInMemoryCache.destroy s b = Except.error Fault.assertion := by
  refine ⟨?_, ?_⟩
  · simp [Block.unlink, deref, hb, hn, gapidAssert]
  · simp only [ResourceInMemoryCache.destroy, deref, hb, ok_bind, mHead_if_eq]
    rw [free_spec _ b blk (by simpa using hb)]
    simp [Block.unlink, deref, hn, gapidAssert]

/-- C16: for a block `b` of a well-formed ring, the assertion of `Block::unlink`
(`next != this && prev != this`) holds if and only if the ring has at least two
blocks; on such a ring `unlink(b)` and `destroy(b)` return, and when `b` is the only
block of its ring both trip the assertion; so does `destroy` of a block as the
constructors make it, which is self-linked. -/
theorem unlink_assertion_iff (s : ResourceInMemoryCache) (b : Ptr) (blk : Block)
    (pre post : List Ptr) (hb : s.blocks b = some blk)
    (hr : IsRing s.blocks (pre ++ b :: post)) :
    ((blk.next != b && blk.prev != b) = true ↔ pre ++ post ≠ []) ∧
    (pre ++ post ≠ [] → (∃ m2, Block.unlink s.blocks b = Except.ok m2) ∧
      ∃ r, ResourceInMemoryCache.destroy s b = Except.ok r) ∧
    (pre ++ post = [] → Block.unlink s.blocks b = Except.error Fault.assertion ∧
      ResourceInMemoryCache.destroy s b = Except.error Fault.assertion) ∧
    (∀ (p : Ptr) (offset size : Nat) (id : ResourceId),
      SelfLinked (store s.blocks p (Block.mk3 p offset size id)) p ∧
      ResourceInMemoryCache.destroy
        { s with blocks := store s.blocks p (Block.mk3 p offset size id) } p =
        Except.error Fault.assertion) := by
  have hbnot : b ∉ pre ++ post := by
    intro hmem
    have := List.nodup_middle.mp hr.2.1
    exact (List.nodup_cons.mp this).1 hmem
  have hsingle : pre ++ post = [] → blk.next = b := by
    intro h
    have hp := List.append_eq_nil.mp h
    have h1 : IsRing s.blocks [b] := by
      have := hr
      rw [hp.1, hp.2] at this
      simpa using this
    have := ((isRing_single _ _).mp h1).1
    simpa [nextOf, hb] using this
  refine ⟨⟨?_, ?_⟩, ?_, ?_, ?_⟩
  · intro hassert h
    have := hsingle h
    simp [this] at hassert
  · intro h2
    obtain ⟨hnx, hpv⟩ := isRing_neighbours_rest hr hb h2
    have hn : blk.next ≠ b := by
      intro h
      apply hbnot
      have := List.mem_of_mem_head? hnx
      rw [h] at this
      simpa [List.mem_append, or_comm] using this
    have hp : blk.prev ≠ b := by
      intro h
      apply hbnot
      have := List.mem_of_mem_getLast? hpv
      rw [h] at this
      simpa [List.mem_append, or_comm] using this
    simp [hn, hp]
  · intro h2
    obtain ⟨m2, hm2, -⟩ := unlink_ring hr h2
    obtain ⟨s2, hd, -⟩ := destroy_spec s b blk pre post hb hr h2
    exact ⟨⟨m2, hm2⟩, ⟨_, hd⟩⟩
  · intro h
    exact destroy_self_next s b blk hb (hsingle h)
  · intro p offset size id
    refine ⟨by simp [SelfLinked, nextOf, prevOf, Block.mk3], ?_⟩
    exact (destroy_self_next _ p (Block.mk3 p offset size id) (by simp) rfl).2

/-- C16 at block 2 of the three-block ring of `abcCache`, where `unlink` and `destroy`
return, and at block 0 of the single-block ring of `seedCache`, where both trip the
assertion. -/
theorem unlink_assertion_iff_witness :
    (abcCache.blocks 2 = some { offset := 40, size := 40, id := "b", next := 3, prev := 0 } ∧
      IsRing abcCache.blocks ([0] ++ 2 :: [3]) ∧
      (((3 : Ptr) != 2 && (0 : Ptr) != 2) = true ↔ [0] ++ [3] ≠ ([] : List Ptr)) ∧
      (∃ m2, Block.unlink abcCache.blocks 2 = Except.ok m2) ∧
      ∃ r, ResourceInMemoryCache.destroy abcCache 2 = Except.ok r) ∧
    (seedCache.blocks 0 = some (Block.mk3 0 0 0 "") ∧
      IsRing seedCache.blocks ([] ++ 0 :: []) ∧
      Block.unlink seedCache.blocks 0 = Except.error Fault.assertion ∧
      ResourceInMemoryCache.destroy seedCache 0 = Except.error Fault.assertion) :=
  ⟨⟨rfl, by decide,
      (unlink_assertion_iff abcCache 2 _ [0] [3] rfl (by decide)).1,
      (unlink_assertion_iff abcCache 2 _ [0] [3] rfl (by decide)).2.1 (by decide)⟩,
    ⟨rfl, by decide,
      (unlink_assertion_iff seedCache 0 _ [] [] rfl (by decide)).2.2.1 rfl⟩⟩

/-- C17: when `mHead` points to a block of a well-formed ring of at least two blocks,
`destroy(b)` of a block `b` of the ring returns, and afterwards `mHead` is the former
successor of `b` if it was `b` and is unchanged otherwise; it points to a block of
the resulting ring and not to the deleted block. -/
theorem destroy_keeps_cursor (s : ResourceInMemoryCache) (b : Ptr) (blk : Block)
    (pre post : List Ptr) (hb : s.blocks b = some blk)
    (hr : IsRing s.blocks (pre ++ b :: post)) (h2 : pre ++ post ≠ [])
    (hh : s.mHead ∈ pre ++ b :: post) :
    ∃ s2 nx, ResourceInMemoryCache.destroy s b = Except.ok (s2, nx) ∧
      (post ++ pre).head? = some blk.next ∧
      s2.mHead = (if s.mHead = b then blk.next else s.mHead) ∧
      IsRing s2.blocks (pre ++ post) ∧ s2.mHead ∈ pre ++ post ∧ s2.mHead ≠ b ∧
      s2.blocks b = none := by
  obtain ⟨s2, hd, hr2, hdel, -, -, hh2, -, -, -⟩ := destroy_spec s b blk pre post hb hr h2
  obtain ⟨hnx, -⟩ := isRing_neighbours_rest hr hb h2
  have hbnot : b ∉ pre ++ post := by
    intro hmem
    have := List.nodup_middle.mp hr.2.1
    exact (List.nodup_cons.mp this).1 hmem
  have hmem : s2.mHead ∈ pre ++ post := by
    rw [hh2]
    by_cases hc : s.mHead = b
    · rw [if_pos hc]
      have := List.mem_of_mem_head? hnx
      simpa [List.mem_append, or_comm] using this
    · rw [if_neg hc]
      simp only [List.mem_append, List.mem_cons] at hh ⊢
      tauto
  refine ⟨s2, blk.next, hd, hnx, hh2, hr2, hmem, ?_, hdel⟩
  intro h
  exact hbnot (h ▸ hmem)

/-- C17 at the ring of `abcCache`, whose cursor is at block 0: `destroy` of block 0
moves the cursor to block 2, `destroy` of block 2 leaves it at block 0. -/
theorem destroy_keeps_cursor_witness :
    (abcCache.blocks 0 = some { offset := 20, size := 20, id := "", next := 2, prev := 3 } ∧
      IsRing abcCache.blocks ([] ++ 0 :: [2, 3]) ∧ [] ++ [2, 3] ≠ ([] : List Ptr) ∧
      abcCache.mHead ∈ [] ++ 0 :: [2, 3] ∧
      ∃ s2 nx, ResourceInMemoryCache.destroy abcCache 0 = Except.ok (s2, nx) ∧
        ([2, 3] ++ []).head? = some 2 ∧
        s2.mHead = (if abcCache.mHead = 0 then 2 else abcCache.mHead) ∧
        IsRing s2.blocks ([] ++ [2, 3]) ∧ s2.mHead ∈ [] ++ [2, 3] ∧ s2.mHead ≠ 0 ∧
        s2.blocks 0 = none) ∧
    (abcCache.blocks 2 = some { offset := 40, size := 40, id := "b", next := 3, prev := 0 } ∧
      IsRing abcCache.blocks ([0] ++ 2 :: [3]) ∧ [0] ++ [3] ≠ ([] : List Ptr) ∧
      abcCache.mHead ∈ [0] ++ 2 :: [3] ∧
      ∃ s2 nx, ResourceInMemoryCache.destroy abcCache 2 = Except.ok (s2, nx) ∧
        ([3] ++ [0]).head? = some 3 ∧
        s2.mHead = (if abcCache.mHead = 2 then 3 else abcCache.mHead) ∧
        IsRing s2.blocks ([0] ++ [3]) ∧ s2.mHead ∈ [0] ++ [3] ∧ s2.mHead ≠ 2 ∧
        s2.blocks 2 = none) :=
  ⟨⟨rfl, by decide, by decide, by decide,
      destroy_keeps_cursor abcCache 0 _ [] [2, 3] rfl (by decide) (by decide) (by decide)⟩,
    ⟨rfl, by decide, by decide, by decide,
      destroy_keeps_cursor abcCache 2 _ [0] [3] rfl (by decide) (by decide) (by decide)⟩⟩

end gapir
